import Mathlib

/-!
# SuperStore data-streaming analysis: a verification model

This file embeds the aggregation engine of the SuperStore analysis
(`grouping_aggregation_helpers.py`, `queries.py`, data model from `orders.py`)
in Lean and proves the specified properties of it.

Modelling conventions:
* Python floats are modelled as exact rationals (`ℚ`); the properties under
  study are stated in exact arithmetic.
* A Python `dict` is modelled as an insertion-ordered association list
  (`List (κ × α)`): updating an existing key rewrites its value in place,
  a fresh key is appended at the end, and iteration follows list order.
  This matches the insertion-order guarantee of Python dictionaries.
* `math.sqrt` is kept symbolic: `aggregate_stddev_by_key` is modelled up to
  the final pointwise square root, returning the exact radicand `M2 / denom`
  per key.  Since `Real.sqrt` is a monotone bijection on the nonnegative
  reals, key presence and all comparisons transfer; theorems mention
  `Real.sqrt` explicitly where the stddev value itself is at stake.
* `heapq` is modelled operation by operation after CPython's `heapq.py`
  (`_siftdown`, `_siftup`, `heappush`, `heappop`), with the heap array as a
  `List` and the element comparison as an explicit `<` on tuples.
-/

set_option linter.unusedSectionVars false

namespace SuperStore

/-! ## Python `dict` as an insertion-ordered association list -/

/-- `d.get(k)`: first (and, for dicts, only) binding of `k`. -/
def lookupD {κ α : Type} [DecidableEq κ] : List (κ × α) → κ → Option α
  | [], _ => none
  | (k, v) :: t, k' => if k = k' then some v else lookupD t k'

/-- `d[k] = v`: rewrite the binding of `k` in place, or append a fresh one. -/
def dictInsert {κ α : Type} [DecidableEq κ] : List (κ × α) → κ → α → List (κ × α)
  | [], k, v => [(k, v)]
  | (k', v') :: t, k, v =>
      if k' = k then (k', v) :: t else (k', v') :: dictInsert t k v

/-- The keys of a dict, in iteration order. -/
def keysD {κ α : Type} (l : List (κ × α)) : List κ := l.map Prod.fst

section PrimitiveDefs

variable {O κ M : Type} [DecidableEq κ]

/-- The values extracted for key `k`, in record order. -/
def valsOf (key_fn : O → κ) (value_fn : O → M) (k : κ) (orders : List O) : List M :=
  (orders.filter fun o => decide (key_fn o = k)).map value_fn

/-- `aggregate_sum_by_key`: group by key and sum value (`defaultdict(float)`). -/
def aggregate_sum_by_key (orders : List O) (key_fn : O → κ) (value_fn : O → ℚ) :
    List (κ × ℚ) :=
  orders.foldl (fun totals o =>
    dictInsert totals (key_fn o) ((lookupD totals (key_fn o)).getD 0 + value_fn o)) []

/-- `aggregate_mean_by_key`: accumulate per-key total and count in one pass,
finalize as `total[key] / count[key]` for keys with positive count. -/
def aggregate_mean_by_key (orders : List O) (key_fn : O → κ) (value_fn : O → ℚ) :
    List (κ × ℚ) :=
  let total := orders.foldl (fun t o =>
    dictInsert t (key_fn o) ((lookupD t (key_fn o)).getD 0 + value_fn o)) []
  let count : List (κ × ℕ) := orders.foldl (fun t o =>
    dictInsert t (key_fn o) ((lookupD t (key_fn o)).getD 0 + 1)) []
  total.filterMap fun kv =>
    if 0 < (lookupD count kv.1).getD 0 then
      some (kv.1, kv.2 / ((lookupD count kv.1).getD 0 : ℚ))
    else none

/-- One step of Welford's online update, exactly as in the loop body of
`aggregate_stddev_by_key`: `count += 1; delta = v - mean;
mean += delta/count; delta2 = v - mean; m2 += delta*delta2`. -/
def welfordStep (st : ℕ × ℚ × ℚ) (value : ℚ) : ℕ × ℚ × ℚ :=
  let count := st.1 + 1
  let delta := value - st.2.1
  let mean := st.2.1 + delta / (count : ℚ)
  let delta2 := value - mean
  (count, mean, st.2.2 + delta * delta2)

/-- The per-key `(count, mean, M2)` accumulation loop of
`aggregate_stddev_by_key` (`stats.get(key, (0, 0.0, 0.0))` then update). -/
def welfordStats (orders : List O) (key_fn : O → κ) (value_fn : O → ℚ) :
    List (κ × (ℕ × ℚ × ℚ)) :=
  orders.foldl (fun stats o =>
    dictInsert stats (key_fn o)
      (welfordStep ((lookupD stats (key_fn o)).getD (0, 0, 0)) (value_fn o))) []

/-- `aggregate_stddev_by_key`, modelled up to the final `math.sqrt`: each
surviving key is mapped to the radicand `m2 / denom` (the Python function
returns its square root).  The `count == 0` and `denom == 0` `continue`
guards of the source are kept as `filterMap` drop branches. -/
def aggregate_stddev_by_key (orders : List O) (key_fn : O → κ) (value_fn : O → ℚ)
    (sample : Bool := true) : List (κ × ℚ) :=
  (welfordStats orders key_fn value_fn).filterMap fun kv =>
    if kv.2.1 = 0 then none
    else
      let denom : ℕ := if sample ∧ 1 < kv.2.1 then kv.2.1 - 1 else kv.2.1
      if denom = 0 then none
      else some (kv.1, kv.2.2.2 / (denom : ℚ))

end PrimitiveDefs

/-! ## The `Order` data model (`orders.py`)

Monetary amounts are exact rationals; the optional order/ship dates are
modelled as optional timestamps in seconds (the only operation the queries
perform on them is `(ship_date - order_date).total_seconds()`).
-/

structure Order where
  category : String
  sub_category : String
  state : String
  country : String
  customer_id : String
  customer_name : String
  year : Int
  market : String
  sales : ℚ
  profit : ℚ
  discount : ℚ
  quantity : Int
  shipping_cost : ℚ
  product_id : Option String := none
  product_name : Option String := none
  order_date : Option ℚ := none
  ship_date : Option ℚ := none
deriving DecidableEq

/-! ## Composite queries (`queries.py`)

Each Python query takes a CSV path and re-streams the records; the model
takes the streamed record list itself (`stream_orders(path)` is the list).
-/

/-- Total sales per `(Year, Market, Category)`. -/
def sales_by_year_region_category (orders : List Order) :
    List ((Int × String × String) × ℚ) :=
  aggregate_sum_by_key orders (fun o => (o.year, o.market, o.category)) (fun o => o.sales)

/-- The walk of `yoy_category_sales_trends` over one group's year-sorted
`(year, sales)` entries, carrying the previous year's sales. -/
def yoyWalk : Option ℚ → List (Int × ℚ) → List (Int × ℚ × Option ℚ × Option ℚ)
  | _, [] => []
  | none, (year, sales) :: t =>
      (year, sales, none, none) :: yoyWalk (some sales) t
  | some prev, (year, sales) :: t =>
      (year, sales, some prev,
        if prev ≠ 0 then some ((sales - prev) / prev) else none) :: yoyWalk (some sales) t

/-- Specification helper: the single entry the `yoy_category_sales_trends`
walk emits for `(year, sales)` entry `e` given the carried previous sales. -/
def yoyCell (prev : Option ℚ) (e : Int × ℚ) : Int × ℚ × Option ℚ × Option ℚ :=
  match prev with
  | none => (e.1, e.2, none, none)
  | some pv => (e.1, e.2, some pv, if pv ≠ 0 then some ((e.2 - pv) / pv) else none)

/-- Stable insertion of `x` into `s`: `x` goes after every element that the
`keep` relation says stays before it.  `List.foldl (insertStable keep) []`
is a stable sort whenever `keep` is total; since Python's `sorted` is also
stable, the two agree whenever the sort key admits ties, and agree outright
on duplicate-free keys. -/
def insertStable {α : Type} (keep : α → α → Bool) (s : List α) (x : α) : List α :=
  match s with
  | [] => [x]
  | y :: t => if keep y x then y :: insertStable keep t x else x :: y :: t

/-- `sorted(entries, key=lambda x: x[0])`: stable ascending sort by year. -/
def sortByYear (entries : List (Int × ℚ)) : List (Int × ℚ) :=
  entries.foldl (insertStable fun a b => decide (a.1 ≤ b.1)) []

/-- `yoy_category_sales_trends`: regroup the per-`(year, region, category)`
totals by `(region, category)`, sort each group by year, and walk the
entries computing the year-over-year change. -/
def yoy_category_sales_trends (orders : List Order) :
    List ((String × String) × List (Int × ℚ × Option ℚ × Option ℚ)) :=
  let totals := sales_by_year_region_category orders
  let grouped : List ((String × String) × List (Int × ℚ)) :=
    totals.foldl (fun g kv =>
      dictInsert g (kv.1.2.1, kv.1.2.2)
        ((lookupD g (kv.1.2.1, kv.1.2.2)).getD [] ++ [(kv.1.1, kv.2)])) []
  grouped.map fun kv => (kv.1, yoyWalk none (sortByYear kv.2))

/-- `profit_margin_by_category_subcategory`: two sum passes, then
`profit / sales` per key, `none` when the key's sales total is zero. -/
def profit_margin_by_category_subcategory (orders : List Order) :
    List ((String × String) × Option ℚ) :=
  let total_sales := aggregate_sum_by_key orders
    (fun o => (o.category, o.sub_category)) (fun o => o.sales)
  let total_profit := aggregate_sum_by_key orders
    (fun o => (o.category, o.sub_category)) (fun o => o.profit)
  total_sales.map fun kv =>
    (kv.1, if kv.2 ≠ 0 then some ((lookupD total_profit kv.1).getD 0 / kv.2) else none)

/-- `total_discounted_profit`: sum of profit over `discount > 0` records
(a one-key sum pass with constant key `"all"`, then `.get("all", 0.0)`). -/
def total_discounted_profit (orders : List Order) : ℚ :=
  (lookupD (aggregate_sum_by_key (orders.filter fun o => decide (0 < o.discount))
    (fun _ => "all") (fun o => o.profit)) "all").getD 0

/-- `discounted_profit_share`: discounted profit over total profit, `none`
when the total profit is zero. -/
def discounted_profit_share (orders : List Order) : Option ℚ :=
  let discounted := total_discounted_profit orders
  let total := (lookupD (aggregate_sum_by_key orders
    (fun _ => "all") (fun o => o.profit)) "all").getD 0
  if total ≠ 0 then some (discounted / total) else none

/-- `average_fulfillment_days`: mean of `(ship_date - order_date)` in
fractional days over records having both dates, `none` if there are none. -/
def average_fulfillment_days (orders : List Order) : Option ℚ :=
  let with_dates := orders.filter fun o => o.order_date.isSome && o.ship_date.isSome
  let mean_map := aggregate_mean_by_key with_dates (fun _ => "all")
    (fun o => (o.ship_date.getD 0 - o.order_date.getD 0) / 86400)
  lookupD mean_map "all"

/-- `profit_std_by_market_category`: stddev of profit per (Market, Category)
(radicand model, see `aggregate_stddev_by_key`). -/
def profit_std_by_market_category (orders : List Order) (sample : Bool := true) :
    List ((String × String) × ℚ) :=
  aggregate_stddev_by_key orders (fun o => (o.market, o.category)) (fun o => o.profit) sample


section DictLemmas

variable {κ α : Type} [DecidableEq κ]

@[simp] theorem keysD_nil : keysD ([] : List (κ × α)) = [] := rfl

@[simp] theorem keysD_cons (k₀ : κ) (v₀ : α) (t : List (κ × α)) :
    keysD ((k₀, v₀) :: t) = k₀ :: keysD t := rfl

theorem lookupD_dictInsert_self (l : List (κ × α)) (k : κ) (v : α) :
    lookupD (dictInsert l k v) k = some v := by
  induction l with
  | nil => simp [dictInsert, lookupD]
  | cons kv t ih =>
      obtain ⟨k', v'⟩ := kv
      by_cases h : k' = k
      · subst h; simp [dictInsert, lookupD]
      · simp [dictInsert, lookupD, h, ih]

theorem lookupD_dictInsert_ne (l : List (κ × α)) (k k' : κ) (v : α) (h : k ≠ k') :
    lookupD (dictInsert l k v) k' = lookupD l k' := by
  induction l with
  | nil => simp [dictInsert, lookupD, h]
  | cons kv t ih =>
      obtain ⟨k₀, v₀⟩ := kv
      by_cases h₀ : k₀ = k
      · subst h₀; simp [dictInsert, lookupD, h]
      · simp [dictInsert, lookupD, h₀, ih]

theorem keysD_dictInsert_mem (l : List (κ × α)) (k : κ) (v : α) (h : k ∈ keysD l) :
    keysD (dictInsert l k v) = keysD l := by
  induction l with
  | nil => simp at h
  | cons kv t ih =>
      obtain ⟨k₀, v₀⟩ := kv
      by_cases h₀ : k₀ = k
      · subst h₀; simp [dictInsert]
      · rw [keysD_cons, List.mem_cons] at h
        rcases h with h | h
        · exact absurd h.symm h₀
        · simp [dictInsert, h₀, ih h]

theorem keysD_dictInsert_not_mem (l : List (κ × α)) (k : κ) (v : α) (h : k ∉ keysD l) :
    keysD (dictInsert l k v) = keysD l ++ [k] := by
  induction l with
  | nil => simp [dictInsert]
  | cons kv t ih =>
      obtain ⟨k₀, v₀⟩ := kv
      rw [keysD_cons, List.mem_cons] at h
      push_neg at h
      simp [dictInsert, Ne.symm h.1, ih h.2]

theorem mem_keysD_iff_lookupD (l : List (κ × α)) (k : κ) :
    k ∈ keysD l ↔ (lookupD l k).isSome := by
  induction l with
  | nil => simp [lookupD]
  | cons kv t ih =>
      obtain ⟨k₀, v₀⟩ := kv
      by_cases h : k₀ = k
      · subst h; simp [lookupD]
      · rw [keysD_cons, List.mem_cons]
        simp [lookupD, h, Ne.symm h, ih]

theorem keysD_dictInsert_nodup (l : List (κ × α)) (k : κ) (v : α)
    (h : (keysD l).Nodup) : (keysD (dictInsert l k v)).Nodup := by
  by_cases hm : k ∈ keysD l
  · rw [keysD_dictInsert_mem l k v hm]; exact h
  · rw [keysD_dictInsert_not_mem l k v hm]
    simpa [List.nodup_append] using ⟨h, fun hx => hm hx⟩

/-- In a dict with nodup keys, a binding in the list is the looked-up one. -/
theorem lookupD_eq_of_mem (l : List (κ × α)) (k : κ) (v : α)
    (hnd : (keysD l).Nodup) (h : (k, v) ∈ l) : lookupD l k = some v := by
  induction l with
  | nil => simp at h
  | cons kv t ih =>
      obtain ⟨k₀, v₀⟩ := kv
      rw [keysD_cons, List.nodup_cons] at hnd
      rcases List.mem_cons.mp h with h | h
      · injection h with h1 h2
        subst h1; subst h2; simp [lookupD]
      · have hk : k₀ ≠ k := by
          rintro rfl
          exact hnd.1 (List.mem_map_of_mem Prod.fst h)
        simp [lookupD, hk, ih hnd.2 h]

theorem mem_of_lookupD_eq (l : List (κ × α)) (k : κ) (v : α)
    (h : lookupD l k = some v) : (k, v) ∈ l := by
  induction l with
  | nil => simp [lookupD] at h
  | cons kv t ih =>
      obtain ⟨k₀, v₀⟩ := kv
      by_cases hk : k₀ = k
      · subst hk; simp [lookupD] at h; simp [h]
      · simp [lookupD, hk] at h
        exact List.mem_cons_of_mem _ (ih h)

end DictLemmas

/-! ## The shared traversal shape of the aggregation primitives

Every primitive in `grouping_aggregation_helpers.py` performs the same fold:
map each record to `(key, value)` and update the per-key accumulator state
that is looked up in the dict (with a default for fresh keys).  The
characterization lemma below is proved once for this shape.
-/

section FoldAgg

variable {O κ M β : Type} [DecidableEq κ]

@[simp] theorem valsOf_nil (key_fn : O → κ) (value_fn : O → M) (k : κ) :
    valsOf key_fn value_fn k [] = [] := rfl

theorem valsOf_cons (key_fn : O → κ) (value_fn : O → M) (k : κ) (o : O) (os : List O) :
    valsOf key_fn value_fn k (o :: os) =
      if key_fn o = k then value_fn o :: valsOf key_fn value_fn k os
      else valsOf key_fn value_fn k os := by
  by_cases h : key_fn o = k <;> simp [valsOf, List.filter_cons, h]

theorem valsOf_eq_nil_iff (key_fn : O → κ) (value_fn : O → M) (k : κ) (orders : List O) :
    valsOf key_fn value_fn k orders = [] ↔ k ∉ orders.map key_fn := by
  unfold valsOf
  rw [List.map_eq_nil_iff, List.filter_eq_nil_iff]
  simp

/-- Per-key projection of the aggregation fold: looking up `k` in the folded
dict yields exactly the fold of the per-key update rule over `k`'s values. -/
theorem foldAgg_lookupD (upd : β → M → β) (init : β) (key_fn : O → κ)
    (value_fn : O → M) (orders : List O) (t : List (κ × β)) (k : κ) :
    lookupD (orders.foldl (fun t o =>
        dictInsert t (key_fn o) (upd ((lookupD t (key_fn o)).getD init) (value_fn o))) t) k
      = match lookupD t k with
        | some b => some ((valsOf key_fn value_fn k orders).foldl upd b)
        | none =>
            if k ∈ orders.map key_fn then
              some ((valsOf key_fn value_fn k orders).foldl upd init)
            else none := by
  induction orders generalizing t with
  | nil => cases h : lookupD t k <;> simp [h]
  | cons o os ih =>
      rw [List.foldl_cons, ih]
      by_cases hk : key_fn o = k
      · rw [hk, lookupD_dictInsert_self]
        cases h : lookupD t k with
        | some b => simp [h, valsOf_cons, hk]
        | none => simp [h, valsOf_cons, hk]
      · rw [lookupD_dictInsert_ne _ _ _ _ hk]
        cases h : lookupD t k <;> simp [h, valsOf_cons, hk, Ne.symm hk]

theorem foldAgg_keysD_nodup (upd : β → M → β) (init : β) (key_fn : O → κ)
    (value_fn : O → M) (orders : List O) (t : List (κ × β))
    (ht : (keysD t).Nodup) :
    (keysD (orders.foldl (fun t o =>
        dictInsert t (key_fn o) (upd ((lookupD t (key_fn o)).getD init) (value_fn o))) t)).Nodup := by
  induction orders generalizing t with
  | nil => exact ht
  | cons o os ih => exact ih _ (keysD_dictInsert_nodup _ _ _ ht)

/-- Keys present in the folded dict (starting empty) are the keys seen. -/
theorem foldAgg_mem_keysD (upd : β → M → β) (init : β) (key_fn : O → κ)
    (value_fn : O → M) (orders : List O) (k : κ) :
    k ∈ keysD (orders.foldl (fun t o =>
        dictInsert t (key_fn o) (upd ((lookupD t (key_fn o)).getD init) (value_fn o))) [])
      ↔ k ∈ orders.map key_fn := by
  rw [mem_keysD_iff_lookupD, foldAgg_lookupD upd init key_fn value_fn orders [] k]
  simp only [lookupD]
  by_cases hm : k ∈ orders.map key_fn <;> simp [hm]

end FoldAgg

/-! ## Lookup through a key-preserving dict comprehension -/

section FilterMapLemmas

variable {κ α β : Type} [DecidableEq κ]

theorem keysD_filterMap_sub (l : List (κ × α)) (g : κ → α → Option β) (k : κ)
    (h : k ∈ keysD (l.filterMap fun kv => (g kv.1 kv.2).map fun b => (kv.1, b))) :
    k ∈ keysD l := by
  induction l with
  | nil => simpa using h
  | cons kv t ih =>
      obtain ⟨k₀, v₀⟩ := kv
      rw [keysD_cons, List.mem_cons]
      cases hg : g k₀ v₀ with
      | none =>
          rw [List.filterMap_cons_none (by simp [hg])] at h
          exact Or.inr (ih h)
      | some b =>
          have hstep : List.filterMap
                (fun kv : κ × α => Option.map (fun b => (kv.1, b)) (g kv.1 kv.2)) ((k₀, v₀) :: t)
              = (k₀, b) :: List.filterMap
                (fun kv : κ × α => Option.map (fun b => (kv.1, b)) (g kv.1 kv.2)) t :=
            List.filterMap_cons_some (by simp [hg])
          rw [hstep] at h
          rw [keysD_cons, List.mem_cons] at h
          exact h.imp id ih

/-- A dict comprehension `{k: g(k, v) for (k, v) in l if ...}` (with distinct
keys) looked up at `k` computes `g` on the looked-up value. -/
theorem lookupD_filterMap_keyed (l : List (κ × α)) (g : κ → α → Option β) (k : κ)
    (hnd : (keysD l).Nodup) :
    lookupD (l.filterMap fun kv => (g kv.1 kv.2).map fun b => (kv.1, b)) k
      = (lookupD l k).bind fun v => g k v := by
  induction l with
  | nil => simp [lookupD]
  | cons kv t ih =>
      obtain ⟨k₀, v₀⟩ := kv
      rw [keysD_cons, List.nodup_cons] at hnd
      have htail : lookupD (t.filterMap fun kv => (g kv.1 kv.2).map fun b => (kv.1, b)) k
          = (lookupD t k).bind fun v => g k v := ih hnd.2
      by_cases hk : k₀ = k
      · subst hk
        have hnone : lookupD (t.filterMap fun kv => (g kv.1 kv.2).map fun b => (kv.1, b)) k₀
            = none := by
          cases hcase : lookupD (t.filterMap fun kv => (g kv.1 kv.2).map fun b => (kv.1, b)) k₀ with
          | none => rfl
          | some w =>
              exact absurd
                (keysD_filterMap_sub t g k₀
                  ((mem_keysD_iff_lookupD _ k₀).mpr (by simp [hcase])))
                hnd.1
        cases hg : g k₀ v₀ with
        | none =>
            rw [List.filterMap_cons_none (by simp [hg])]
            simp only [lookupD, if_pos rfl, Option.bind_some]
            exact hnone.trans hg.symm
        | some b =>
            have hstep : List.filterMap
                  (fun kv : κ × α => Option.map (fun b => (kv.1, b)) (g kv.1 kv.2)) ((k₀, v₀) :: t)
                = (k₀, b) :: List.filterMap
                  (fun kv : κ × α => Option.map (fun b => (kv.1, b)) (g kv.1 kv.2)) t :=
              List.filterMap_cons_some (by simp [hg])
            rw [hstep]
            simp [lookupD, hg]
      · cases hg : g k₀ v₀ with
        | none =>
            rw [List.filterMap_cons_none (by simp [hg])]
            simpa [lookupD, hk] using htail
        | some b =>
            have hstep : List.filterMap
                  (fun kv : κ × α => Option.map (fun b => (kv.1, b)) (g kv.1 kv.2)) ((k₀, v₀) :: t)
                = (k₀, b) :: List.filterMap
                  (fun kv : κ × α => Option.map (fun b => (kv.1, b)) (g kv.1 kv.2)) t :=
              List.filterMap_cons_some (by simp [hg])
            rw [hstep]
            simpa [lookupD, hk] using htail

end FilterMapLemmas

/-! ## Fold bridges -/

section FoldBridges

theorem foldl_add_eq_add_sum {M : Type} [AddCommMonoid M] (l : List M) (b : M) :
    l.foldl (fun b v => b + v) b = b + l.sum := by
  induction l generalizing b with
  | nil => simp
  | cons a t ih => rw [List.foldl_cons, ih, List.sum_cons, add_assoc]

theorem foldl_count_eq_length {M : Type} (l : List M) (n : ℕ) :
    l.foldl (fun n _ => n + 1) n = n + l.length := by
  induction l generalizing n with
  | nil => simp
  | cons a t ih => rw [List.foldl_cons, ih, List.length_cons]; omega

theorem foldl_append_singleton {M : Type} (l : List M) (b : List M) :
    l.foldl (fun es v => es ++ [v]) b = b ++ l := by
  induction l generalizing b with
  | nil => simp
  | cons a t ih => rw [List.foldl_cons, ih]; simp

end FoldBridges

/-! ## The aggregation primitives (`grouping_aggregation_helpers.py`) -/

section Primitives

variable {O κ : Type} [DecidableEq κ]

theorem aggregate_sum_by_key_lookupD (orders : List O) (key_fn : O → κ)
    (value_fn : O → ℚ) (k : κ) :
    lookupD (aggregate_sum_by_key orders key_fn value_fn) k
      = if k ∈ orders.map key_fn then some (valsOf key_fn value_fn k orders).sum
        else none := by
  unfold aggregate_sum_by_key
  have h := foldAgg_lookupD (fun b v => b + v) (0 : ℚ) key_fn value_fn orders [] k
  simp only [lookupD] at h
  rw [h]
  by_cases hm : k ∈ orders.map key_fn <;> simp [hm, foldl_add_eq_add_sum]

theorem aggregate_sum_by_key_keysD_nodup (orders : List O) (key_fn : O → κ)
    (value_fn : O → ℚ) :
    (keysD (aggregate_sum_by_key orders key_fn value_fn)).Nodup :=
  foldAgg_keysD_nodup _ _ _ _ _ _ (by simp)

theorem aggregate_sum_by_key_mem_keysD (orders : List O) (key_fn : O → κ)
    (value_fn : O → ℚ) (k : κ) :
    k ∈ keysD (aggregate_sum_by_key orders key_fn value_fn)
      ↔ k ∈ orders.map key_fn :=
  foldAgg_mem_keysD (fun b v => b + v) (0 : ℚ) key_fn value_fn orders k

theorem aggregate_mean_by_key_lookupD (orders : List O) (key_fn : O → κ)
    (value_fn : O → ℚ) (k : κ) :
    lookupD (aggregate_mean_by_key orders key_fn value_fn) k
      = if k ∈ orders.map key_fn then
          some ((valsOf key_fn value_fn k orders).sum
            / ((valsOf key_fn value_fn k orders).length : ℚ))
        else none := by
  simp only [aggregate_mean_by_key]
  set T : List (κ × ℚ) := orders.foldl (fun t o =>
    dictInsert t (key_fn o) ((lookupD t (key_fn o)).getD 0 + value_fn o)) [] with hTdef
  set C : List (κ × ℕ) := orders.foldl (fun t o =>
    dictInsert t (key_fn o) ((lookupD t (key_fn o)).getD 0 + 1)) [] with hCdef
  have hT : lookupD T k
      = if k ∈ orders.map key_fn
        then some ((valsOf key_fn value_fn k orders).foldl (fun b v => b + v) 0) else none := by
    rw [hTdef]
    have h := foldAgg_lookupD (fun b v => b + v) (0 : ℚ) key_fn value_fn orders [] k
    simp only [lookupD] at h
    exact h
  have hCfold : ∀ k', lookupD C k'
      = if k' ∈ orders.map key_fn
        then some ((valsOf key_fn value_fn k' orders).foldl (fun n _ => n + 1) 0) else none := by
    intro k'
    rw [hCdef]
    have h := foldAgg_lookupD (fun (n : ℕ) (_ : ℚ) => n + 1) 0 key_fn value_fn orders [] k'
    simp only [lookupD] at h
    exact h
  have hnd : (keysD T).Nodup := by
    rw [hTdef]; exact foldAgg_keysD_nodup _ _ _ _ _ _ (by simp)
  have hshape : (fun kv : κ × ℚ =>
        if 0 < (lookupD C kv.1).getD 0 then
          some (kv.1, kv.2 / ((lookupD C kv.1).getD 0 : ℚ))
        else none)
      = fun kv : κ × ℚ =>
        ((fun (k' : κ) (v : ℚ) =>
          if 0 < (lookupD C k').getD 0 then
            some (v / ((lookupD C k').getD 0 : ℚ))
          else none) kv.1 kv.2).map fun b => (kv.1, b) := by
    funext kv
    by_cases h : 0 < (lookupD C kv.1).getD 0 <;> simp [h]
  rw [hshape, lookupD_filterMap_keyed T
    (fun (k' : κ) (v : ℚ) =>
      if 0 < (lookupD C k').getD 0 then some (v / ((lookupD C k').getD 0 : ℚ)) else none)
    k hnd, hT]
  by_cases hm : k ∈ orders.map key_fn
  · have hC : lookupD C k = some ((valsOf key_fn value_fn k orders).length) := by
      rw [hCfold k]
      simp [hm, foldl_count_eq_length]
    have hvne : valsOf key_fn value_fn k orders ≠ [] :=
      fun he => (valsOf_eq_nil_iff _ _ _ _).mp he hm
    have hpos : 0 < (valsOf key_fn value_fn k orders).length := List.length_pos.mpr hvne
    simp [hm, hC, hpos, foldl_add_eq_add_sum]
  · simp [hm]

/-- The count component of the Welford fold counts the values. -/
theorem welford_foldl_count (vs : List ℚ) (st : ℕ × ℚ × ℚ) :
    (vs.foldl welfordStep st).1 = st.1 + vs.length := by
  induction vs generalizing st with
  | nil => simp
  | cons v t ih =>
      rw [List.foldl_cons, ih]
      simp [welfordStep]
      omega

/-- Each Welford update adds `delta * delta2 = delta^2 * count/(count+1) ≥ 0`
to `M2`, so `M2` never decreases. -/
theorem welfordStep_m2_ge (st : ℕ × ℚ × ℚ) (v : ℚ) :
    st.2.2 ≤ (welfordStep st v).2.2 := by
  obtain ⟨c, μ, m2⟩ := st
  have hc : ((c : ℚ) + 1) ≠ 0 := by positivity
  have key : (welfordStep (c, μ, m2) v).2.2
      = m2 + (v - μ) ^ 2 * (c : ℚ) / ((c : ℚ) + 1) := by
    simp only [welfordStep]
    push_cast
    field_simp
    ring
  rw [key]
  have : 0 ≤ (v - μ) ^ 2 * (c : ℚ) / ((c : ℚ) + 1) := by positivity
  linarith

/-- In exact arithmetic the accumulated `M2` is nonnegative. -/
theorem welford_foldl_m2_nonneg (vs : List ℚ) (st : ℕ × ℚ × ℚ) (h : 0 ≤ st.2.2) :
    0 ≤ (vs.foldl welfordStep st).2.2 := by
  induction vs generalizing st with
  | nil => exact h
  | cons v t ih =>
      rw [List.foldl_cons]
      exact ih _ (le_trans h (welfordStep_m2_ge st v))

theorem welfordStats_lookupD (orders : List O) (key_fn : O → κ)
    (value_fn : O → ℚ) (k : κ) :
    lookupD (welfordStats orders key_fn value_fn) k
      = if k ∈ orders.map key_fn then
          some ((valsOf key_fn value_fn k orders).foldl welfordStep (0, 0, 0))
        else none := by
  unfold welfordStats
  have h := foldAgg_lookupD welfordStep ((0, 0, 0) : ℕ × ℚ × ℚ) key_fn value_fn orders [] k
  simp only [lookupD] at h
  exact h

theorem welfordStats_keysD_nodup (orders : List O) (key_fn : O → κ)
    (value_fn : O → ℚ) :
    (keysD (welfordStats orders key_fn value_fn)).Nodup :=
  foldAgg_keysD_nodup _ _ _ _ _ _ (by simp)

/-- Full lookup characterization of the (radicand of the) stddev map:
present iff the key was seen, with value `M2 / denom` where
`denom = count-1` if `sample` and `count > 1`, else `count`. -/
theorem aggregate_stddev_by_key_lookupD (orders : List O) (key_fn : O → κ)
    (value_fn : O → ℚ) (sample : Bool) (k : κ) :
    lookupD (aggregate_stddev_by_key orders key_fn value_fn sample) k
      = if k ∈ orders.map key_fn then
          some (((valsOf key_fn value_fn k orders).foldl welfordStep (0, 0, 0)).2.2
            / ((if sample ∧ 1 < (valsOf key_fn value_fn k orders).length then
                  (valsOf key_fn value_fn k orders).length - 1
                else (valsOf key_fn value_fn k orders).length : ℕ) : ℚ))
        else none := by
  simp only [aggregate_stddev_by_key]
  set W : List (κ × (ℕ × ℚ × ℚ)) := welfordStats orders key_fn value_fn with hWdef
  have hshape : (fun kv : κ × (ℕ × ℚ × ℚ) =>
        if kv.2.1 = 0 then none
        else
          if (if sample ∧ 1 < kv.2.1 then kv.2.1 - 1 else kv.2.1) = 0 then none
          else some (kv.1, kv.2.2.2
            / ((if sample ∧ 1 < kv.2.1 then kv.2.1 - 1 else kv.2.1 : ℕ) : ℚ)))
      = fun kv : κ × (ℕ × ℚ × ℚ) =>
        ((fun (_ : κ) (st : ℕ × ℚ × ℚ) =>
          if st.1 = 0 then none
          else
            if (if sample ∧ 1 < st.1 then st.1 - 1 else st.1) = 0 then none
            else some (st.2.2
              / ((if sample ∧ 1 < st.1 then st.1 - 1 else st.1 : ℕ) : ℚ))) kv.1 kv.2).map
          fun b => (kv.1, b) := by
    funext kv
    by_cases h0 : kv.2.1 = 0
    · simp [h0]
    · by_cases hd : (if sample ∧ 1 < kv.2.1 then kv.2.1 - 1 else kv.2.1) = 0 <;>
        simp [h0, hd]
  rw [hshape, lookupD_filterMap_keyed W
    (fun (_ : κ) (st : ℕ × ℚ × ℚ) =>
      if st.1 = 0 then none
      else
        if (if sample ∧ 1 < st.1 then st.1 - 1 else st.1) = 0 then none
        else some (st.2.2
          / ((if sample ∧ 1 < st.1 then st.1 - 1 else st.1 : ℕ) : ℚ)))
    k (hWdef ▸ welfordStats_keysD_nodup orders key_fn value_fn),
    hWdef, welfordStats_lookupD]
  by_cases hm : k ∈ orders.map key_fn
  · have hvne : valsOf key_fn value_fn k orders ≠ [] :=
      fun he => (valsOf_eq_nil_iff _ _ _ _).mp he hm
    have hpos : 0 < (valsOf key_fn value_fn k orders).length := List.length_pos.mpr hvne
    have hcount : ((valsOf key_fn value_fn k orders).foldl welfordStep (0, 0, 0)).1
        = (valsOf key_fn value_fn k orders).length := by
      rw [welford_foldl_count]; simp
    have hd : (if sample ∧ 1 < (valsOf key_fn value_fn k orders).length then
        (valsOf key_fn value_fn k orders).length - 1
        else (valsOf key_fn value_fn k orders).length) ≠ 0 := by
      by_cases hs : sample ∧ 1 < (valsOf key_fn value_fn k orders).length
      · obtain ⟨hs1, hs2⟩ := hs
        rw [if_pos ⟨hs1, hs2⟩]
        omega
      · rw [if_neg hs]
        omega
    have hzero : ¬((valsOf key_fn value_fn k orders).length = 0) := by omega
    rw [if_pos hm, if_pos hm, Option.some_bind]
    rw [hcount, if_neg hzero, if_neg hd]
  · simp [hm]

end Primitives



/-- A single concrete order used in witnesses and counterexamples. -/
def demoOrder : Order :=
  { category := "Furniture", sub_category := "Chairs", state := "CA",
    country := "USA", customer_id := "C1", customer_name := "Alice",
    year := 2020, market := "US", sales := 100, profit := 10,
    discount := 0, quantity := 2, shipping_cost := 5 }

/-- A second concrete order, discounted, with dates two days apart. -/
def demoOrder2 : Order :=
  { category := "Furniture", sub_category := "Tables", state := "CA",
    country := "USA", customer_id := "C2", customer_name := "Bob",
    year := 2021, market := "US", sales := 200, profit := 50,
    discount := 1/10, quantity := 1, shipping_cost := 7,
    order_date := some 0, ship_date := some 172800 }


/-! ## CPython `heapq`, modelled operation by operation

The heap array is a `List`; the element comparison is an explicit
`lt : α → α → Bool`, matching Python's duck-typed `<`.  `_siftdown` bubbles
the new item up while it is `<` its parent; `_siftup` sinks the hole at
`pos` to a leaf along smaller children and then calls `_siftdown`.
-/

section HeapDefs

variable {α : Type} [Inhabited α]

/-- `heapq._siftdown(heap, startpos, pos)` with `newitem = heap[pos]` read
out: shift parents down while `newitem < parent`, then place `newitem`. -/
def siftdown (lt : α → α → Bool) (startpos : ℕ) (newitem : α) (heap : List α)
    (pos : ℕ) : List α :=
  if h : startpos < pos then
    let parentpos := (pos - 1) / 2
    if lt newitem (heap.getD parentpos default) then
      siftdown lt startpos newitem (heap.set pos (heap.getD parentpos default)) parentpos
    else heap.set pos newitem
  else heap.set pos newitem
termination_by pos
decreasing_by
  have := Nat.div_le_self (pos - 1) 2
  omega

/-- `heapq.heappush`: append, then sift the new last element up. -/
def heappush (lt : α → α → Bool) (heap : List α) (item : α) : List α :=
  siftdown lt 0 item (heap ++ [item]) heap.length

/-- The child-descent loop of `heapq._siftup`: move the smaller child into
the hole until the hole has no child; returns the array and the hole. -/
def siftupLoop (lt : α → α → Bool) (endpos : ℕ) (heap : List α) (pos : ℕ) :
    List α × ℕ :=
  if h : 2 * pos + 1 < endpos then
    let childpos :=
      if decide (2 * pos + 2 < endpos)
          && !(lt (heap.getD (2 * pos + 1) default) (heap.getD (2 * pos + 2) default)) then
        2 * pos + 2
      else 2 * pos + 1
    siftupLoop lt endpos (heap.set pos (heap.getD childpos default)) childpos
  else (heap, pos)
termination_by endpos - pos
decreasing_by
  split <;> omega

/-- `heapq._siftup(heap, pos)`: sink the hole to a leaf, then sift the
saved item back up from there. -/
def siftup (lt : α → α → Bool) (heap : List α) (pos : ℕ) : List α :=
  let newitem := heap.getD pos default
  let hp := siftupLoop lt heap.length heap pos
  siftdown lt pos newitem hp.1 hp.2

/-- `heapq.heappop`: pop the last element; if the heap is still nonempty,
save the root as the return value, move the last element to the root and
sift it up.  (Python raises on an empty heap; that call site is
unreachable here, so the model returns `default`.) -/
def heappop (lt : α → α → Bool) (heap : List α) : α × List α :=
  let lastelt := heap.getLastD default
  let rest := heap.dropLast
  if rest.isEmpty then (lastelt, [])
  else (rest.getD 0 default, siftup lt (rest.set 0 lastelt) 0)

end HeapDefs


/-- The facts about the Bool comparison that the heap arguments use:
irreflexivity, transitivity, and transitivity of the complement (which for
a total strict order is `≥`). -/
structure LtOrder {α : Type} (lt : α → α → Bool) : Prop where
  irrefl : ∀ a, lt a a = false
  lt_trans : ∀ a b c, lt a b = true → lt b c = true → lt a c = true
  ge_trans : ∀ a b c, lt a b = false → lt b c = false → lt a c = false
  conn : ∀ a b, lt a b = false → lt b a = false → a = b

/-- The CPython heap invariant: every non-root entry is not `<` its parent
(`heap[i] >= heap[(i-1)/2]`). -/
def IsHeap {α : Type} [Inhabited α] (lt : α → α → Bool) (heap : List α) : Prop :=
  ∀ i, 0 < i → i < heap.length →
    lt (heap.getD i default) (heap.getD ((i - 1) / 2) default) = false

/-- Python tuple comparison `<` on `(margin, category, sub_category)`:
lexicographic, strict. -/
def pyLt (a b : ℚ × String × String) : Bool :=
  decide (a.1 < b.1)
    || (decide (a.1 = b.1)
        && (decide (a.2.1 < b.2.1)
            || (decide (a.2.1 = b.2.1) && decide (a.2.2 < b.2.2))))

/-- The lexicographic view of a candidate tuple, used to relate `pyLt` to
the lexicographic linear order. -/
def toLex3 (a : ℚ × String × String) : ℚ ×ₗ (String ×ₗ String) :=
  toLex (a.1, toLex (a.2.1, a.2.2))

/-- `top_categories_by_margin`: two sum passes, a bounded min-heap of
`(margin, category, sub_category)` tuples keyed by Python tuple order
(push each nonzero-sales candidate, pop the minimum when the size exceeds
`n`), then a stable descending sort by margin alone. -/
def top_categories_by_margin (orders : List Order) (n : ℕ := 5) :
    List (String × String × ℚ) :=
  let total_sales := aggregate_sum_by_key orders
    (fun o => (o.category, o.sub_category)) (fun o => o.sales)
  let total_profit := aggregate_sum_by_key orders
    (fun o => (o.category, o.sub_category)) (fun o => o.profit)
  let heap : List (ℚ × String × String) := total_sales.foldl (fun heap kv =>
    if kv.2 = 0 then heap
    else
      let margin := (lookupD total_profit kv.1).getD 0 / kv.2
      let h2 := heappush pyLt heap (margin, kv.1.1, kv.1.2)
      if n < h2.length then (heappop pyLt h2).2 else h2) []
  let top := heap.foldl (insertStable fun a b => decide (b.1 ≤ a.1)) []
  top.map fun x => (x.2.1, x.2.2, x.1)

/-- One iteration of the bounded-heap fold in `top_categories_by_margin`:
push the candidate, and pop the minimum if the heap now exceeds `n`. -/
def heapFoldStep {α : Type} [Inhabited α] (lt : α → α → Bool) (n : ℕ)
    (heap : List α) (x : α) : List α :=
  let h2 := heappush lt heap x
  if n < h2.length then (heappop lt h2).2 else h2

/-- The bounded-heap fold of `top_categories_by_margin` over a candidate
list, abstracted from the query. -/
def heapFold {α : Type} [Inhabited α] (lt : α → α → Bool) (n : ℕ)
    (cands : List α) : List α :=
  cands.foldl (heapFoldStep lt n) []

/-- The candidate tuples `(margin, category, sub_category)` that
`top_categories_by_margin` pushes: one per group with nonzero total
sales, in first-occurrence order of the group key. -/
def topCands (orders : List Order) : List (ℚ × String × String) :=
  (aggregate_sum_by_key orders (fun o => (o.category, o.sub_category))
      (fun o => o.sales)).filterMap
    fun kv =>
      if kv.2 = 0 then none
      else some
        ((lookupD (aggregate_sum_by_key orders
            (fun o => (o.category, o.sub_category)) (fun o => o.profit))
            kv.1).getD 0 / kv.2,
          kv.1.1, kv.1.2)

/-- A family of orders with distinct group keys, unit sales and zero
profit: every group's margin is `0`, so all heap tuples tie on margin. -/
def tieOrder (c s : String) : Order :=
  { demoOrder with category := c, sub_category := s, sales := 1, profit := 0 }

/-! ## List index/multiset toolbox for the heap proofs -/

section ListToolbox

variable {α : Type}

theorem getD_set_eq (l : List α) (i : ℕ) (v d : α) (h : i < l.length) :
    (l.set i v).getD i d = v := by
  induction l generalizing i with
  | nil => simp at h
  | cons a t ih =>
      cases i with
      | zero => rfl
      | succ j => exact ih j (by simpa using h)

theorem getD_set_ne (l : List α) (i j : ℕ) (v d : α) (h : i ≠ j) :
    (l.set i v).getD j d = l.getD j d := by
  induction l generalizing i j with
  | nil => simp
  | cons a t ih =>
      cases i with
      | zero =>
          cases j with
          | zero => exact absurd rfl h
          | succ j' => rfl
      | succ i' =>
          cases j with
          | zero => rfl
          | succ j' => exact ih i' j' (by omega)

theorem coe_eq_getD_cons_eraseIdx (l : List α) (i : ℕ) (d : α) (h : i < l.length) :
    (l : Multiset α) = l.getD i d ::ₘ ↑(l.eraseIdx i) := by
  induction l generalizing i with
  | nil => simp at h
  | cons a t ih =>
      cases i with
      | zero => rfl
      | succ j =>
          have ht := ih j (by simpa using h)
          rw [List.getD_cons_succ, List.eraseIdx_cons_succ, ← Multiset.cons_coe,
            ← Multiset.cons_coe, ht, Multiset.cons_swap]

theorem coe_set_eq_cons_eraseIdx (l : List α) (i : ℕ) (v d : α) (h : i < l.length) :
    ((l.set i v : List α) : Multiset α) = v ::ₘ ↑(l.eraseIdx i) := by
  induction l generalizing i with
  | nil => simp at h
  | cons a t ih =>
      cases i with
      | zero => rfl
      | succ j =>
          have ht := ih j (by simpa using h)
          rw [List.set_cons_succ, List.eraseIdx_cons_succ, ← Multiset.cons_coe,
            ← Multiset.cons_coe, ht, Multiset.cons_swap]

theorem getD_eq_getElem (l : List α) (i : ℕ) (d : α) (h : i < l.length) :
    l.getD i d = l[i] := by
  rw [List.getD_eq_getElem?_getD, List.getElem?_eq_getElem h]
  rfl

theorem getD_dropLast (l : List α) (i : ℕ) (d : α) (h : i < l.length - 1) :
    l.dropLast.getD i d = l.getD i d := by
  have h2 : i < l.dropLast.length := by
    rw [List.length_dropLast]
    exact h
  rw [List.getD_eq_getElem?_getD, List.getD_eq_getElem?_getD,
    List.getElem?_eq_getElem h2, List.getElem?_eq_getElem (by omega),
    List.getElem_dropLast]

end ListToolbox

/-! ## Verification of the heap operations -/

section HeapLemmas

variable {α : Type} [Inhabited α] {lt : α → α → Bool}

theorem LtOrder.asymm (hord : LtOrder lt) (a b : α) (hab : lt a b = true) :
    lt b a = false := by
  cases hcase : lt b a
  · rfl
  · have h2 := hord.lt_trans a b a hab hcase
    rw [hord.irrefl a] at h2
    exact absurd h2 (by simp)

/-- Full specification of `_siftdown` from `startpos = 0` (the only call
shape in this program): given a heap whose only defect is the hole at
`pos` — all other edges respect the heap order, the hole's children are not
below `newitem`, and the hole's children are not below the hole's parent —
the result is a heap of the same length whose contents are `newitem` plus
everything except the hole. -/
theorem siftdown_spec (hord : LtOrder lt) (ni : α) :
    ∀ pos heap, pos < heap.length →
      (∀ c, 0 < c → c < heap.length → c ≠ pos → (c - 1) / 2 ≠ pos →
        lt (heap.getD c default) (heap.getD ((c - 1) / 2) default) = false) →
      (∀ c, 0 < c → c < heap.length → (c - 1) / 2 = pos →
        lt (heap.getD c default) ni = false) →
      (∀ c, 0 < c → c < heap.length → (c - 1) / 2 = pos → 0 < pos →
        lt (heap.getD c default) (heap.getD ((pos - 1) / 2) default) = false) →
      IsHeap lt (siftdown lt 0 ni heap pos)
      ∧ (siftdown lt 0 ni heap pos).length = heap.length
      ∧ ((siftdown lt 0 ni heap pos : List α) : Multiset α)
          = ni ::ₘ ↑(heap.eraseIdx pos) := by
  intro pos
  induction pos using Nat.strong_induction_on with
  | _ pos ih =>
  intro heap hlen hA hB hC
  by_cases hpos : 0 < pos
  case neg =>
    have hp0 : pos = 0 := by omega
    subst hp0
    rw [siftdown, dif_neg (by omega : ¬ (0 : ℕ) < 0)]
    refine ⟨?_, List.length_set .., coe_set_eq_cons_eraseIdx heap 0 ni default hlen⟩
    intro i hi0 hilen
    rw [List.length_set] at hilen
    by_cases hpar : (i - 1) / 2 = 0
    · rw [hpar, getD_set_ne heap 0 i ni default (by omega),
        getD_set_eq heap 0 ni default hlen]
      exact hB i hi0 hilen hpar
    · rw [getD_set_ne heap 0 i ni default (by omega),
        getD_set_ne heap 0 ((i - 1) / 2) ni default (by omega)]
      exact hA i hi0 hilen (by omega) hpar
  case pos =>
    rw [siftdown, dif_pos hpos]
    simp only []
    have hpp : (pos - 1) / 2 < pos := by
      have := Nat.div_le_self (pos - 1) 2
      omega
    by_cases hlt : lt ni (heap.getD ((pos - 1) / 2) default) = true
    · rw [if_pos hlt]
      have hlen' : (pos - 1) / 2
          < (heap.set pos (heap.getD ((pos - 1) / 2) default)).length := by
        rw [List.length_set]; omega
      have hA' : ∀ c, 0 < c →
          c < (heap.set pos (heap.getD ((pos - 1) / 2) default)).length →
          c ≠ (pos - 1) / 2 → (c - 1) / 2 ≠ (pos - 1) / 2 →
          lt ((heap.set pos (heap.getD ((pos - 1) / 2) default)).getD c default)
            ((heap.set pos (heap.getD ((pos - 1) / 2) default)).getD ((c - 1) / 2) default)
            = false := by
        intro c hc0 hclen hcpp hparpp
        rw [List.length_set] at hclen
        by_cases hcpos : c = pos
        · exact absurd (by rw [hcpos]) hparpp
        · rw [getD_set_ne heap pos c _ default (by omega)]
          by_cases hpar : (c - 1) / 2 = pos
          · rw [hpar, getD_set_eq heap pos _ default hlen]
            exact hC c hc0 hclen hpar hpos
          · rw [getD_set_ne heap pos ((c - 1) / 2) _ default (by omega)]
            exact hA c hc0 hclen hcpos hpar
      have hB' : ∀ c, 0 < c →
          c < (heap.set pos (heap.getD ((pos - 1) / 2) default)).length →
          (c - 1) / 2 = (pos - 1) / 2 →
          lt ((heap.set pos (heap.getD ((pos - 1) / 2) default)).getD c default) ni
            = false := by
        intro c hc0 hclen hcpar
        rw [List.length_set] at hclen
        by_cases hcpos : c = pos
        · rw [hcpos, getD_set_eq heap pos _ default hlen]
          exact hord.asymm ni _ hlt
        · rw [getD_set_ne heap pos c _ default (by omega)]
          cases hcase : lt (heap.getD c default) ni
          · rfl
          · exfalso
            have h2 := hord.lt_trans _ _ _ hcase hlt
            have h3 := hA c hc0 hclen hcpos (by omega)
            rw [hcpar] at h3
            rw [h3] at h2
            exact absurd h2 (by simp)
      have hC' : ∀ c, 0 < c →
          c < (heap.set pos (heap.getD ((pos - 1) / 2) default)).length →
          (c - 1) / 2 = (pos - 1) / 2 → 0 < (pos - 1) / 2 →
          lt ((heap.set pos (heap.getD ((pos - 1) / 2) default)).getD c default)
            ((heap.set pos (heap.getD ((pos - 1) / 2) default)).getD
              (((pos - 1) / 2 - 1) / 2) default) = false := by
        intro c hc0 hclen hcpar hpp0
        rw [List.length_set] at hclen
        rw [getD_set_ne heap pos (((pos - 1) / 2 - 1) / 2) _ default
          (by
            have := Nat.div_le_self ((pos - 1) / 2 - 1) 2
            omega)]
        by_cases hcpos : c = pos
        · rw [hcpos, getD_set_eq heap pos _ default hlen]
          exact hA ((pos - 1) / 2) hpp0 (by omega) (by omega)
            (by
              have := Nat.div_le_self ((pos - 1) / 2 - 1) 2
              omega)
        · rw [getD_set_ne heap pos c _ default (by omega)]
          have h1 : lt (heap.getD c default) (heap.getD ((pos - 1) / 2) default)
              = false := by
            have h0 := hA c hc0 hclen hcpos (by omega)
            rw [hcpar] at h0
            exact h0
          have h2 : lt (heap.getD ((pos - 1) / 2) default)
              (heap.getD (((pos - 1) / 2 - 1) / 2) default) = false :=
            hA ((pos - 1) / 2) hpp0 (by omega) (by omega)
              (by
                have := Nat.div_le_self ((pos - 1) / 2 - 1) 2
                omega)
          exact hord.ge_trans _ _ _ h1 h2
      obtain ⟨ihH, ihL, ihM⟩ := ih ((pos - 1) / 2) hpp
        (heap.set pos (heap.getD ((pos - 1) / 2) default)) hlen' hA' hB' hC'
      refine ⟨ihH, by rw [ihL, List.length_set], ?_⟩
      rw [ihM]
      have h1 : ((heap.set pos (heap.getD ((pos - 1) / 2) default) : List α) : Multiset α)
          = heap.getD ((pos - 1) / 2) default
            ::ₘ ↑((heap.set pos (heap.getD ((pos - 1) / 2) default)).eraseIdx
              ((pos - 1) / 2)) := by
        have hm := coe_eq_getD_cons_eraseIdx
          (heap.set pos (heap.getD ((pos - 1) / 2) default)) ((pos - 1) / 2) default
          (by rw [List.length_set]; omega)
        rw [getD_set_ne heap pos ((pos - 1) / 2) _ default (by omega)] at hm
        exact hm
      have h2 : ((heap.set pos (heap.getD ((pos - 1) / 2) default) : List α) : Multiset α)
          = heap.getD ((pos - 1) / 2) default ::ₘ ↑(heap.eraseIdx pos) :=
        coe_set_eq_cons_eraseIdx heap pos _ default hlen
      rw [(Multiset.cons_inj_right (heap.getD ((pos - 1) / 2) default)).mp
        (h1.symm.trans h2)]
    · rw [if_neg hlt]
      refine ⟨?_, List.length_set .., coe_set_eq_cons_eraseIdx heap pos ni default hlen⟩
      intro i hi0 hilen
      rw [List.length_set] at hilen
      by_cases hipos : i = pos
      · subst hipos
        rw [getD_set_eq heap i ni default hlen,
          getD_set_ne heap i ((i - 1) / 2) ni default (by omega)]
        cases hcase : lt ni (heap.getD ((i - 1) / 2) default)
        · rfl
        · exact absurd hcase hlt
      · rw [getD_set_ne heap pos i ni default (by omega)]
        by_cases hpar : (i - 1) / 2 = pos
        · rw [hpar, getD_set_eq heap pos ni default hlen]
          exact hB i hi0 hilen hpar
        · rw [getD_set_ne heap pos ((i - 1) / 2) ni default (by omega)]
          exact hA i hi0 hilen hipos hpar

theorem isHeap_root_min (hord : LtOrder lt) (heap : List α) (hh : IsHeap lt heap) :
    ∀ i, i < heap.length → lt (heap.getD i default) (heap.getD 0 default) = false := by
  intro i
  induction i using Nat.strong_induction_on with
  | _ i ih =>
  intro hilen
  by_cases hi0 : i = 0
  · subst hi0
    exact hord.irrefl _
  · have hpar := hh i (by omega) hilen
    have hltpar : (i - 1) / 2 < i := by
      have := Nat.div_le_self (i - 1) 2
      omega
    have hppar := ih ((i - 1) / 2) hltpar (by omega)
    exact hord.ge_trans _ _ _ hpar hppar

/-- `heappush` preserves the heap invariant, grows the length by one, and
adds exactly the pushed element to the contents. -/
theorem heappush_spec (hord : LtOrder lt) (heap : List α) (x : α)
    (hh : IsHeap lt heap) :
    IsHeap lt (heappush lt heap x)
    ∧ (heappush lt heap x).length = heap.length + 1
    ∧ ((heappush lt heap x : List α) : Multiset α) = x ::ₘ ↑heap := by
  unfold heappush
  have hlen : heap.length < (heap ++ [x]).length := by simp
  have hA : ∀ c, 0 < c → c < (heap ++ [x]).length → c ≠ heap.length →
      (c - 1) / 2 ≠ heap.length →
      lt ((heap ++ [x]).getD c default) ((heap ++ [x]).getD ((c - 1) / 2) default)
        = false := by
    intro c hc0 hclen hcne hparne
    simp only [List.length_append, List.length_cons, List.length_nil] at hclen
    have hc : c < heap.length := by omega
    have hpar : (c - 1) / 2 < heap.length := by omega
    rw [List.getD_append heap [x] default c hc,
      List.getD_append heap [x] default ((c - 1) / 2) hpar]
    exact hh c hc0 hc
  have hB : ∀ c, 0 < c → c < (heap ++ [x]).length → (c - 1) / 2 = heap.length →
      lt ((heap ++ [x]).getD c default) x = false := by
    intro c hc0 hclen hcpar
    simp only [List.length_append, List.length_cons, List.length_nil] at hclen
    omega
  have hC : ∀ c, 0 < c → c < (heap ++ [x]).length → (c - 1) / 2 = heap.length →
      0 < heap.length →
      lt ((heap ++ [x]).getD c default)
        ((heap ++ [x]).getD ((heap.length - 1) / 2) default) = false := by
    intro c hc0 hclen hcpar _
    simp only [List.length_append, List.length_cons, List.length_nil] at hclen
    omega
  obtain ⟨h1, h2, h3⟩ := siftdown_spec hord x heap.length (heap ++ [x]) hlen hA hB hC
  refine ⟨h1, by rw [h2]; simp, ?_⟩
  rw [h3, List.eraseIdx_append_of_length_le (le_refl heap.length) [x]]
  simp

/-- Specification of the `_siftup` descent loop: starting from a hole at
`pos` whose other edges are heap-ordered and whose hole-children are not
below the hole's parent, it ends with a hole at a childless position, all
non-hole edges heap-ordered, and the non-hole contents unchanged. -/
theorem siftupLoop_spec (hord : LtOrder lt) :
    ∀ fuel endpos heap pos, endpos = heap.length → endpos - pos ≤ fuel →
      pos < endpos →
      (∀ c, 0 < c → c < endpos → c ≠ pos → (c - 1) / 2 ≠ pos →
        lt (heap.getD c default) (heap.getD ((c - 1) / 2) default) = false) →
      (∀ c, 0 < c → c < endpos → (c - 1) / 2 = pos → 0 < pos →
        lt (heap.getD c default) (heap.getD ((pos - 1) / 2) default) = false) →
      (siftupLoop lt endpos heap pos).1.length = heap.length
      ∧ (siftupLoop lt endpos heap pos).2 < endpos
      ∧ endpos ≤ 2 * (siftupLoop lt endpos heap pos).2 + 1
      ∧ (∀ c, 0 < c → c < endpos → c ≠ (siftupLoop lt endpos heap pos).2 →
          lt ((siftupLoop lt endpos heap pos).1.getD c default)
            ((siftupLoop lt endpos heap pos).1.getD ((c - 1) / 2) default) = false)
      ∧ (↑((siftupLoop lt endpos heap pos).1.eraseIdx (siftupLoop lt endpos heap pos).2)
          : Multiset α) = ↑(heap.eraseIdx pos) := by
  intro fuel
  induction fuel with
  | zero =>
      intro endpos heap pos he hf hp _ _
      exact absurd hp (by omega)
  | succ fuel ih =>
    intro endpos heap pos he hf hp hA hC
    by_cases hch : 2 * pos + 1 < endpos
    case neg =>
      rw [siftupLoop, dif_neg hch]
      refine ⟨rfl, hp, by omega, ?_, rfl⟩
      intro c hc0 hclen hcne
      by_cases hpar : (c - 1) / 2 = pos
      · exact absurd hclen (by omega)
      · exact hA c hc0 hclen hcne hpar
    case pos =>
      rw [siftupLoop, dif_pos hch]
      simp only []
      have hposlen : pos < heap.length := by omega
      by_cases hr : (decide (2 * pos + 2 < endpos)
          && !(lt (heap.getD (2 * pos + 1) default)
            (heap.getD (2 * pos + 2) default))) = true
      · rw [if_pos hr]
        rw [Bool.and_eq_true, decide_eq_true_eq, Bool.not_eq_true'] at hr
        obtain ⟨h2e, hlr⟩ := hr
        have he' : endpos = (heap.set pos (heap.getD (2 * pos + 2) default)).length := by
          rw [List.length_set]; exact he
        have hA' : ∀ c, 0 < c → c < endpos → c ≠ 2 * pos + 2 →
            (c - 1) / 2 ≠ 2 * pos + 2 →
            lt ((heap.set pos (heap.getD (2 * pos + 2) default)).getD c default)
              ((heap.set pos (heap.getD (2 * pos + 2) default)).getD ((c - 1) / 2) default)
              = false := by
          intro c hc0 hclen hcne hparne
          by_cases hcpos : c = pos
          · rw [hcpos, getD_set_eq heap pos _ default hposlen,
              getD_set_ne heap pos ((pos - 1) / 2) _ default (by omega)]
            exact hC (2 * pos + 2) (by omega) h2e (by omega) (by omega)
          · by_cases hparpos : (c - 1) / 2 = pos
            · have hc1 : c = 2 * pos + 1 := by omega
              rw [getD_set_ne heap pos c _ default (by omega), hparpos,
                getD_set_eq heap pos _ default hposlen, hc1]
              exact hlr
            · rw [getD_set_ne heap pos c _ default (by omega),
                getD_set_ne heap pos ((c - 1) / 2) _ default (by omega)]
              exact hA c hc0 hclen hcpos hparpos
        have hC' : ∀ c, 0 < c → c < endpos → (c - 1) / 2 = 2 * pos + 2 →
            0 < 2 * pos + 2 →
            lt ((heap.set pos (heap.getD (2 * pos + 2) default)).getD c default)
              ((heap.set pos (heap.getD (2 * pos + 2) default)).getD
                ((2 * pos + 2 - 1) / 2) default) = false := by
          intro c hc0 hclen hcpar _
          have hgp : (2 * pos + 2 - 1) / 2 = pos := by omega
          rw [hgp, getD_set_ne heap pos c _ default (by omega),
            getD_set_eq heap pos _ default hposlen]
          have h0 := hA c hc0 hclen (by omega) (by omega)
          rw [hcpar] at h0
          exact h0
        obtain ⟨l1, l2, l3, l4, l5⟩ := ih endpos
          (heap.set pos (heap.getD (2 * pos + 2) default)) (2 * pos + 2)
          he' (by omega) h2e hA' hC'
        refine ⟨by rw [l1, List.length_set], l2, l3, l4, ?_⟩
        rw [l5]
        have e1 : ((heap.set pos (heap.getD (2 * pos + 2) default) : List α) : Multiset α)
            = heap.getD (2 * pos + 2) default
              ::ₘ ↑((heap.set pos (heap.getD (2 * pos + 2) default)).eraseIdx
                (2 * pos + 2)) := by
          have hm := coe_eq_getD_cons_eraseIdx
            (heap.set pos (heap.getD (2 * pos + 2) default)) (2 * pos + 2) default
            (by rw [List.length_set]; omega)
          rw [getD_set_ne heap pos (2 * pos + 2) _ default (by omega)] at hm
          exact hm
        have e2 : ((heap.set pos (heap.getD (2 * pos + 2) default) : List α) : Multiset α)
            = heap.getD (2 * pos + 2) default ::ₘ ↑(heap.eraseIdx pos) :=
          coe_set_eq_cons_eraseIdx heap pos _ default hposlen
        rw [(Multiset.cons_inj_right _).mp (e1.symm.trans e2)]
      · rw [if_neg hr]
        have he' : endpos = (heap.set pos (heap.getD (2 * pos + 1) default)).length := by
          rw [List.length_set]; exact he
        have hsib : 2 * pos + 2 < endpos →
            lt (heap.getD (2 * pos + 2) default) (heap.getD (2 * pos + 1) default)
              = false := by
          intro h2e
          rw [Bool.and_eq_true, decide_eq_true_eq, Bool.not_eq_true'] at hr
          push_neg at hr
          have hlr := hr h2e
          cases hcase : lt (heap.getD (2 * pos + 1) default) (heap.getD (2 * pos + 2) default)
          · exact absurd hcase hlr
          · exact hord.asymm _ _ hcase
        have hA' : ∀ c, 0 < c → c < endpos → c ≠ 2 * pos + 1 →
            (c - 1) / 2 ≠ 2 * pos + 1 →
            lt ((heap.set pos (heap.getD (2 * pos + 1) default)).getD c default)
              ((heap.set pos (heap.getD (2 * pos + 1) default)).getD ((c - 1) / 2) default)
              = false := by
          intro c hc0 hclen hcne hparne
          by_cases hcpos : c = pos
          · rw [hcpos, getD_set_eq heap pos _ default hposlen,
              getD_set_ne heap pos ((pos - 1) / 2) _ default (by omega)]
            exact hC (2 * pos + 1) (by omega) hch (by omega) (by omega)
          · by_cases hparpos : (c - 1) / 2 = pos
            · have hc1 : c = 2 * pos + 2 := by omega
              rw [getD_set_ne heap pos c _ default (by omega), hparpos,
                getD_set_eq heap pos _ default hposlen, hc1]
              exact hsib (by omega)
            · rw [getD_set_ne heap pos c _ default (by omega),
                getD_set_ne heap pos ((c - 1) / 2) _ default (by omega)]
              exact hA c hc0 hclen hcpos hparpos
        have hC' : ∀ c, 0 < c → c < endpos → (c - 1) / 2 = 2 * pos + 1 →
            0 < 2 * pos + 1 →
            lt ((heap.set pos (heap.getD (2 * pos + 1) default)).getD c default)
              ((heap.set pos (heap.getD (2 * pos + 1) default)).getD
                ((2 * pos + 1 - 1) / 2) default) = false := by
          intro c hc0 hclen hcpar _
          have hgp : (2 * pos + 1 - 1) / 2 = pos := by omega
          rw [hgp, getD_set_ne heap pos c _ default (by omega),
            getD_set_eq heap pos _ default hposlen]
          have h0 := hA c hc0 hclen (by omega) (by omega)
          rw [hcpar] at h0
          exact h0
        obtain ⟨l1, l2, l3, l4, l5⟩ := ih endpos
          (heap.set pos (heap.getD (2 * pos + 1) default)) (2 * pos + 1)
          he' (by omega) hch hA' hC'
        refine ⟨by rw [l1, List.length_set], l2, l3, l4, ?_⟩
        rw [l5]
        have e1 : ((heap.set pos (heap.getD (2 * pos + 1) default) : List α) : Multiset α)
            = heap.getD (2 * pos + 1) default
              ::ₘ ↑((heap.set pos (heap.getD (2 * pos + 1) default)).eraseIdx
                (2 * pos + 1)) := by
          have hm := coe_eq_getD_cons_eraseIdx
            (heap.set pos (heap.getD (2 * pos + 1) default)) (2 * pos + 1) default
            (by rw [List.length_set]; omega)
          rw [getD_set_ne heap pos (2 * pos + 1) _ default (by omega)] at hm
          exact hm
        have e2 : ((heap.set pos (heap.getD (2 * pos + 1) default) : List α) : Multiset α)
            = heap.getD (2 * pos + 1) default ::ₘ ↑(heap.eraseIdx pos) :=
          coe_set_eq_cons_eraseIdx heap pos _ default hposlen
        rw [(Multiset.cons_inj_right _).mp (e1.symm.trans e2)]

/-- `_siftup(heap, 0)` restores the heap invariant from a root-only defect
and preserves contents and length. -/
theorem siftup_spec (hord : LtOrder lt) (heap : List α) (h0 : 0 < heap.length)
    (hA : ∀ c, 0 < c → c < heap.length → (c - 1) / 2 ≠ 0 →
      lt (heap.getD c default) (heap.getD ((c - 1) / 2) default) = false) :
    IsHeap lt (siftup lt heap 0)
    ∧ (siftup lt heap 0).length = heap.length
    ∧ ((siftup lt heap 0 : List α) : Multiset α) = ↑heap := by
  unfold siftup
  simp only []
  obtain ⟨l1, l2, l3, l4, l5⟩ := siftupLoop_spec hord heap.length heap.length heap 0 rfl
    (by omega) h0 (fun c hc0 hclen hcne hparne => hA c hc0 hclen hparne)
    (fun c _ _ _ h => absurd h (by omega))
  obtain ⟨d1, d2, d3⟩ := siftdown_spec hord (heap.getD 0 default)
    (siftupLoop lt heap.length heap 0).2 (siftupLoop lt heap.length heap 0).1
    (by rw [l1]; exact l2)
    (fun c hc0 hclen hcne _ => l4 c hc0 (by rw [l1] at hclen; exact hclen) hcne)
    (fun c hc0 hclen hcpar => by
      exfalso
      rw [l1] at hclen
      omega)
    (fun c hc0 hclen hcpar _ => by
      exfalso
      rw [l1] at hclen
      omega)
  refine ⟨d1, by rw [d2, l1], ?_⟩
  rw [d3, l5]
  exact (coe_eq_getD_cons_eraseIdx heap 0 default h0).symm

/-- `heappop` on a nonempty heap returns the root — a minimum of the
contents — and leaves a heap with exactly the remaining contents. -/
theorem heappop_spec (hord : LtOrder lt) (heap : List α) (hne : heap ≠ [])
    (hh : IsHeap lt heap) :
    (heappop lt heap).1 = heap.getD 0 default
    ∧ IsHeap lt (heappop lt heap).2
    ∧ (heappop lt heap).2.length = heap.length - 1
    ∧ (↑heap : Multiset α) = (heappop lt heap).1 ::ₘ ↑(heappop lt heap).2
    ∧ ∀ x ∈ heap, lt x (heappop lt heap).1 = false := by
  have hlen0 : 0 < heap.length := List.length_pos.mpr hne
  unfold heappop
  simp only []
  by_cases h1 : heap.length = 1
  · obtain ⟨a, rfl⟩ := List.length_eq_one.mp h1
    rw [if_pos (by rfl)]
    refine ⟨rfl, ?_, rfl, by simp, ?_⟩
    · intro i hi0 hilen
      simp at hilen
    · intro x hx
      rw [List.mem_singleton] at hx
      subst hx
      exact hord.irrefl _
  · have hlen2 : 2 ≤ heap.length := by omega
    have hrne : ¬(heap.dropLast.isEmpty = true) := by
      rw [List.isEmpty_iff]
      intro hemp
      have hlen := congrArg List.length hemp
      rw [List.length_dropLast] at hlen
      simp at hlen
      omega
    rw [if_neg hrne]
    have hlen1 : 0 < (heap.dropLast.set 0 (heap.getLastD default)).length := by
      rw [List.length_set, List.length_dropLast]
      omega
    have hA : ∀ c, 0 < c → c < (heap.dropLast.set 0 (heap.getLastD default)).length →
        (c - 1) / 2 ≠ 0 →
        lt ((heap.dropLast.set 0 (heap.getLastD default)).getD c default)
          ((heap.dropLast.set 0 (heap.getLastD default)).getD ((c - 1) / 2) default)
          = false := by
      intro c hc0 hclen hparne
      rw [List.length_set, List.length_dropLast] at hclen
      rw [getD_set_ne _ 0 c _ default (by omega),
        getD_set_ne _ 0 ((c - 1) / 2) _ default (by omega),
        getD_dropLast heap c default (by omega),
        getD_dropLast heap ((c - 1) / 2) default
          (by
            have := Nat.div_le_self (c - 1) 2
            omega)]
      exact hh c hc0 (by omega)
    obtain ⟨s1, s2, s3⟩ := siftup_spec hord _ hlen1 hA
    refine ⟨getD_dropLast heap 0 default (by omega), s1, ?_, ?_, ?_⟩
    · rw [s2, List.length_set, List.length_dropLast]
    · rw [s3]
      have hsplit : (↑heap : Multiset α) = ↑heap.dropLast + ↑[heap.getLast hne] := by
        rw [Multiset.coe_add, List.dropLast_concat_getLast hne]
      have hlast : heap.getLastD default = heap.getLast hne := by
        rw [List.getLastD_eq_getLast?, List.getLast?_eq_getLast heap hne]
        rfl
      have hrest0 : 0 < heap.dropLast.length := by
        rw [List.length_dropLast]
        omega
      have e1 : ((heap.dropLast.set 0 (heap.getLastD default) : List α) : Multiset α)
          = heap.getLastD default ::ₘ ↑(heap.dropLast.eraseIdx 0) :=
        coe_set_eq_cons_eraseIdx _ 0 _ default hrest0
      have e2 : (↑heap.dropLast : Multiset α)
          = heap.dropLast.getD 0 default ::ₘ ↑(heap.dropLast.eraseIdx 0) :=
        coe_eq_getD_cons_eraseIdx _ 0 default hrest0
      rw [hsplit, e2, e1, hlast, getD_dropLast heap 0 default (by omega)]
      rw [Multiset.coe_singleton, add_comm, Multiset.singleton_add, Multiset.cons_swap]
    · intro x hx
      rw [getD_dropLast heap 0 default (by omega)]
      obtain ⟨i, hi, rfl⟩ := List.mem_iff_getElem.mp hx
      rw [← getD_eq_getElem heap i default hi]
      exact isHeap_root_min hord heap hh i hi

theorem pyLt_iff (a b : ℚ × String × String) :
    pyLt a b = true ↔ toLex3 a < toLex3 b := by
  rw [toLex3, toLex3, Prod.Lex.lt_iff]
  simp only [pyLt, Bool.or_eq_true, Bool.and_eq_true, decide_eq_true_eq]
  constructor
  · rintro (h | ⟨he, h | ⟨he2, h⟩⟩)
    · exact Or.inl h
    · exact Or.inr ⟨he, (Prod.Lex.lt_iff _ _).mpr (Or.inl h)⟩
    · exact Or.inr ⟨he, (Prod.Lex.lt_iff _ _).mpr (Or.inr ⟨he2, h⟩)⟩
  · rintro (h | ⟨he, h⟩)
    · exact Or.inl h
    · rcases (Prod.Lex.lt_iff _ _).mp h with h2 | ⟨he2, h2⟩
      · exact Or.inr ⟨he, Or.inl h2⟩
      · exact Or.inr ⟨he, Or.inr ⟨he2, h2⟩⟩

theorem toLex3_inj (a b : ℚ × String × String) (h : toLex3 a = toLex3 b) : a = b := by
  obtain ⟨a1, a2, a3⟩ := a
  obtain ⟨b1, b2, b3⟩ := b
  simp only [toLex3] at h
  have h1 := congrArg (fun x => (ofLex x).1) h
  have h2 := congrArg (fun x => (ofLex (ofLex x).2).1) h
  have h3 := congrArg (fun x => (ofLex (ofLex x).2).2) h
  simp at h1 h2 h3
  rw [h1, h2, h3]

theorem pyLt_false_iff (a b : ℚ × String × String) :
    pyLt a b = false ↔ ¬ toLex3 a < toLex3 b := by
  rw [← pyLt_iff]
  cases pyLt a b <;> simp

/-- `pyLt` is a strict total (lexicographic) order. -/
theorem pyLtOrder : LtOrder pyLt := by
  constructor
  · intro a
    rw [pyLt_false_iff]
    exact lt_irrefl _
  · intro a b c hab hbc
    rw [pyLt_iff] at hab hbc ⊢
    exact lt_trans hab hbc
  · intro a b c hab hbc
    rw [pyLt_false_iff] at hab hbc ⊢
    rw [not_lt] at hab hbc ⊢
    exact le_trans hbc hab
  · intro a b hab hba
    rw [pyLt_false_iff, not_lt] at hab hba
    exact toLex3_inj a b (le_antisymm hba hab)

end HeapLemmas

/-! ## Query-level helper lemmas -/

section QueryLemmas

variable {O κ α β : Type} [DecidableEq κ]

theorem lookupD_map_keyed (l : List (κ × α)) (g : κ → α → β) (k : κ) :
    lookupD (l.map fun kv => (kv.1, g kv.1 kv.2)) k = (lookupD l k).map fun v => g k v := by
  induction l with
  | nil => simp [lookupD]
  | cons kv t ih =>
      obtain ⟨k₀, v₀⟩ := kv
      by_cases hk : k₀ = k
      · subst hk; simp [lookupD]
      · simp [lookupD, hk, ih]

theorem keysD_map_keyed (l : List (κ × α)) (g : κ → α → β) :
    keysD (l.map fun kv => (kv.1, g kv.1 kv.2)) = keysD l := by
  induction l with
  | nil => rfl
  | cons kv t ih => simpa [keysD] using ih

theorem valsOf_const_key (c : κ) (value_fn : O → α) (l : List O) :
    valsOf (fun _ => c) value_fn c l = l.map value_fn := by
  simp [valsOf]

theorem mem_map_const_key (c : κ) (l : List O) :
    c ∈ l.map (fun _ => c) ↔ l ≠ [] := by
  cases l <;> simp

/-- A constant-key sum pass followed by `.get(key, 0.0)` is the plain sum. -/
theorem lookupD_sum_const_key (orders : List O) (value_fn : O → ℚ) :
    (lookupD (aggregate_sum_by_key orders (fun _ => "all") value_fn) "all").getD 0
      = (orders.map value_fn).sum := by
  rw [aggregate_sum_by_key_lookupD]
  by_cases h : orders = []
  · subst h; simp
  · rw [if_pos ((mem_map_const_key _ _).mpr h), valsOf_const_key]
    rfl

/-- A constant-key mean pass looked up at the key: `none` exactly on empty
input, otherwise the plain mean. -/
theorem lookupD_mean_const_key [DecidableEq O] (orders : List O) (value_fn : O → ℚ) :
    lookupD (aggregate_mean_by_key orders (fun _ => "all") value_fn) "all"
      = if orders = [] then none
        else some ((orders.map value_fn).sum / (orders.length : ℚ)) := by
  rw [aggregate_mean_by_key_lookupD]
  by_cases h : orders = []
  · subst h; simp
  · rw [if_pos ((mem_map_const_key _ _).mpr h), if_neg h, valsOf_const_key]
    simp

end QueryLemmas

/-! ## Claim theorems -/

/-- C2: for every record sequence, key function and value function, and
every key some record maps to, `aggregate_sum_by_key` returns exactly the
arithmetic sum of that key's extracted values and `aggregate_mean_by_key`
returns exactly that sum divided by that key's record count; on the empty
sequence both return the empty mapping. -/
theorem claim_C2_sum_mean {O κ : Type} [DecidableEq κ]
    (orders : List O) (key_fn : O → κ) (value_fn : O → ℚ) :
    (∀ k, k ∈ orders.map key_fn →
        lookupD (aggregate_sum_by_key orders key_fn value_fn) k
          = some (valsOf key_fn value_fn k orders).sum
      ∧ lookupD (aggregate_mean_by_key orders key_fn value_fn) k
          = some ((valsOf key_fn value_fn k orders).sum
              / ((valsOf key_fn value_fn k orders).length : ℚ)))
    ∧ (orders = [] →
        aggregate_sum_by_key orders key_fn value_fn = []
      ∧ aggregate_mean_by_key orders key_fn value_fn = []) := by
  constructor
  · intro k hk
    constructor
    · rw [aggregate_sum_by_key_lookupD, if_pos hk]
    · rw [aggregate_mean_by_key_lookupD, if_pos hk]
  · rintro rfl
    exact ⟨rfl, rfl⟩

/-- Witness for C2 at a concrete input: key `1` of `[1, 2, 3]` grouped by
parity collects values `[1, 3]`, with sum `4` and mean `2`. -/
theorem claim_C2_sum_mean_witness :
    ((1 : ℕ) ∈ [1, 2, 3].map (fun n : ℕ => n % 2))
    ∧ lookupD (aggregate_sum_by_key [1, 2, 3] (fun n : ℕ => n % 2) (fun n => (n : ℚ))) 1
        = some (valsOf (fun n : ℕ => n % 2) (fun n => (n : ℚ)) 1 [1, 2, 3]).sum
    ∧ lookupD (aggregate_mean_by_key [1, 2, 3] (fun n : ℕ => n % 2) (fun n => (n : ℚ))) 1
        = some ((valsOf (fun n : ℕ => n % 2) (fun n => (n : ℚ)) 1 [1, 2, 3]).sum
            / ((valsOf (fun n : ℕ => n % 2) (fun n => (n : ℚ)) 1 [1, 2, 3]).length : ℚ)) :=
  ⟨by decide,
    (claim_C2_sum_mean [1, 2, 3] (fun n : ℕ => n % 2) (fun n => (n : ℚ))).1 1 (by decide)⟩

/-- Shared characterization of `profit_margin_by_category_subcategory`:
key set equal to the sales totals, values `profit/sales` or `none` on zero
sales, and no key outside the sales totals. -/
theorem profit_margin_char (orders : List Order) :
    keysD (profit_margin_by_category_subcategory orders)
        = keysD (aggregate_sum_by_key orders
            (fun o => (o.category, o.sub_category)) (fun o => o.sales))
    ∧ (∀ k s, lookupD (aggregate_sum_by_key orders
          (fun o => (o.category, o.sub_category)) (fun o => o.sales)) k = some s →
        lookupD (profit_margin_by_category_subcategory orders) k
          = some (if s ≠ 0 then
              some ((valsOf (fun o : Order => (o.category, o.sub_category))
                (fun o => o.profit) k orders).sum / s)
            else none))
    ∧ (∀ k, lookupD (aggregate_sum_by_key orders
          (fun o => (o.category, o.sub_category)) (fun o => o.sales)) k = none →
        lookupD (profit_margin_by_category_subcategory orders) k = none) := by
  simp only [profit_margin_by_category_subcategory]
  set S := aggregate_sum_by_key orders
    (fun o => (o.category, o.sub_category)) (fun o => o.sales) with hS
  set P := aggregate_sum_by_key orders
    (fun o => (o.category, o.sub_category)) (fun o => o.profit) with hP
  have hshape : (fun kv : (String × String) × ℚ =>
        (kv.1, if kv.2 ≠ 0 then some ((lookupD P kv.1).getD 0 / kv.2) else none))
      = fun kv : (String × String) × ℚ =>
        (kv.1, (fun (k' : String × String) (v : ℚ) =>
          if v ≠ 0 then some ((lookupD P k').getD 0 / v) else none) kv.1 kv.2) := rfl
  rw [hshape]
  refine ⟨keysD_map_keyed S
    (fun (k' : String × String) (v : ℚ) =>
      if v ≠ 0 then some ((lookupD P k').getD 0 / v) else none),
    fun k s hs => ?_, fun k hk => ?_⟩
  · rw [lookupD_map_keyed S
      (fun (k' : String × String) (v : ℚ) =>
        if v ≠ 0 then some ((lookupD P k').getD 0 / v) else none) k, hs]
    have hmem : k ∈ orders.map fun o : Order => (o.category, o.sub_category) := by
      rw [← aggregate_sum_by_key_mem_keysD orders
        (fun o : Order => (o.category, o.sub_category)) (fun o => o.sales),
        mem_keysD_iff_lookupD, ← hS, hs]
      rfl
    have hprof : lookupD P k
        = some (valsOf (fun o : Order => (o.category, o.sub_category))
            (fun o => o.profit) k orders).sum := by
      rw [hP, aggregate_sum_by_key_lookupD, if_pos hmem]
    simp [hprof]
  · rw [lookupD_map_keyed S
      (fun (k' : String × String) (v : ℚ) =>
        if v ≠ 0 then some ((lookupD P k').getD 0 / v) else none) k, hk]
    rfl


/-- C7: `total_discounted_profit` is the sum of profit over exactly the
records with strictly positive discount, and `discounted_profit_share` is
that sum over the all-records profit sum, `none` exactly when the total
profit is zero. -/
theorem claim_C7_discounted_profit (orders : List Order) :
    total_discounted_profit orders
        = ((orders.filter fun o => decide (0 < o.discount)).map fun o => o.profit).sum
    ∧ discounted_profit_share orders
        = (if (orders.map fun o => o.profit).sum ≠ 0 then
            some (total_discounted_profit orders / (orders.map fun o => o.profit).sum)
          else none) := by
  constructor
  · exact lookupD_sum_const_key _ _
  · simp only [discounted_profit_share]
    rw [lookupD_sum_const_key orders (fun o => o.profit)]

/-- C8: `average_fulfillment_days` is the mean of `(ship - order)/86400`
over exactly the records having both dates, `none` exactly when there is no
such record. -/
theorem claim_C8_average_fulfillment (orders : List Order) :
    average_fulfillment_days orders
      = if (orders.filter fun o => o.order_date.isSome && o.ship_date.isSome) = [] then
          none
        else
          some ((((orders.filter fun o => o.order_date.isSome && o.ship_date.isSome).map
              fun o => (o.ship_date.getD 0 - o.order_date.getD 0) / 86400).sum)
            / (((orders.filter fun o =>
                o.order_date.isSome && o.ship_date.isSome).length : ℚ))) := by
  simp only [average_fulfillment_days]
  rw [lookupD_mean_const_key]

/-- C10: every key of the Welford accumulator has nonnegative `M2` (exact
arithmetic) and positive count, the finalization divisor is strictly
positive, and hence every radicand in the stddev map is nonnegative — the
division and the square root in the source are safe on every input. -/
theorem claim_C10_welford_safety {O κ : Type} [DecidableEq κ]
    (orders : List O) (key_fn : O → κ) (value_fn : O → ℚ) (sample : Bool) (k : κ)
    (c : ℕ) (μ m2 : ℚ)
    (h : lookupD (welfordStats orders key_fn value_fn) k = some (c, μ, m2)) :
    0 ≤ m2 ∧ 0 < c ∧ 0 < (if sample ∧ 1 < c then c - 1 else c)
    ∧ (∀ q, lookupD (aggregate_stddev_by_key orders key_fn value_fn sample) k = some q →
        0 ≤ q) := by
  rw [welfordStats_lookupD] at h
  by_cases hm : k ∈ orders.map key_fn
  case neg => rw [if_neg hm] at h; exact absurd h (by simp)
  rw [if_pos hm] at h
  have hfold := Option.some.inj h
  have hvne : valsOf key_fn value_fn k orders ≠ [] :=
    fun he => (valsOf_eq_nil_iff _ _ _ _).mp he hm
  have hlen : 0 < (valsOf key_fn value_fn k orders).length := List.length_pos.mpr hvne
  have hc : c = (valsOf key_fn value_fn k orders).length := by
    have h1 : ((valsOf key_fn value_fn k orders).foldl welfordStep (0, 0, 0)).1 = c := by
      rw [hfold]
    rw [welford_foldl_count] at h1
    omega
  have hm2 : 0 ≤ m2 := by
    have h2 := welford_foldl_m2_nonneg (valsOf key_fn value_fn k orders) (0, 0, 0) le_rfl
    rw [hfold] at h2
    exact h2
  refine ⟨hm2, by omega, ?_, ?_⟩
  · by_cases hs : sample ∧ 1 < c
    · rw [if_pos hs]
      obtain ⟨hs1, hs2⟩ := hs
      omega
    · rw [if_neg hs]
      omega
  · intro q hq
    rw [aggregate_stddev_by_key_lookupD, if_pos hm] at hq
    have hq2 := Option.some.inj hq
    rw [← hq2]
    apply div_nonneg
    · exact welford_foldl_m2_nonneg _ _ le_rfl
    · exact Nat.cast_nonneg _

/-- Witness for C10 at a concrete input: values `[1, 2]` under one key give
Welford state `(count, mean, M2) = (2, 3/2, 1/2)`. -/
theorem claim_C10_welford_safety_witness :
    lookupD (welfordStats [(1 : ℚ), 2] (fun _ => (0 : ℕ)) (fun v => v)) 0
        = some (2, 3/2, 1/2)
    ∧ (0 ≤ (1/2 : ℚ) ∧ 0 < 2 ∧ 0 < (if true ∧ 1 < 2 then 2 - 1 else 2)
      ∧ (∀ q, lookupD (aggregate_stddev_by_key [(1 : ℚ), 2]
            (fun _ => (0 : ℕ)) (fun v => v) true) 0 = some q → 0 ≤ q)) :=
  ⟨by norm_num [welfordStats, welfordStep, lookupD, dictInsert],
    claim_C10_welford_safety [(1 : ℚ), 2] (fun _ => (0 : ℕ)) (fun v => v) true 0
      2 (3/2) (1/2)
      (by norm_num [welfordStats, welfordStep, lookupD, dictInsert])⟩

/-- C1 counterexample: contrary to the claim, in sample mode a group with
exactly one observation is NOT omitted from the result: its denominator is
`count = 1` (the `sample and count > 1` test falls through to `count`), not
zero, so the key is present with radicand `0/1 = 0` — i.e. the Python
function maps it to `sqrt 0 = 0.0`. -/
theorem claim_C1_counterexample :
    lookupD (profit_std_by_market_category [demoOrder] true) ("US", "Furniture")
      = some 0 := by
  norm_num [profit_std_by_market_category, aggregate_stddev_by_key, welfordStats,
    welfordStep, lookupD, dictInsert, demoOrder]

/-- C1 (amended): `aggregate_stddev_by_key` accumulates per key exactly the
Welford recurrence `welfordStep` over that key's values and finalizes every
seen key as radicand `M2 / denom` (stddev `sqrt (M2 / denom)`) with
`denom = count - 1` when `sample` and `count > 1`, else `count`; since
`denom` is never zero for a seen key, no key is omitted: a singleton group
is present with stddev `0` in sample mode just as in population mode. -/
theorem claim_C1_welford_stddev {O κ : Type} [DecidableEq κ]
    (orders : List O) (key_fn : O → κ) (value_fn : O → ℚ) (sample : Bool) (k : κ) :
    (lookupD (welfordStats orders key_fn value_fn) k
        = if k ∈ orders.map key_fn then
            some ((valsOf key_fn value_fn k orders).foldl welfordStep (0, 0, 0))
          else none)
    ∧ (lookupD (aggregate_stddev_by_key orders key_fn value_fn sample) k
        = if k ∈ orders.map key_fn then
            some (((valsOf key_fn value_fn k orders).foldl welfordStep (0, 0, 0)).2.2
              / ((if sample ∧ 1 < (valsOf key_fn value_fn k orders).length then
                    (valsOf key_fn value_fn k orders).length - 1
                  else (valsOf key_fn value_fn k orders).length : ℕ) : ℚ))
          else none)
    ∧ ((valsOf key_fn value_fn k orders).length = 1 →
        lookupD (aggregate_stddev_by_key orders key_fn value_fn sample) k = some 0) := by
  refine ⟨welfordStats_lookupD orders key_fn value_fn k,
    aggregate_stddev_by_key_lookupD orders key_fn value_fn sample k, fun h1 => ?_⟩
  have hm : k ∈ orders.map key_fn := by
    by_contra hmem
    rw [(valsOf_eq_nil_iff key_fn value_fn k orders).mpr hmem] at h1
    simp at h1
  rw [aggregate_stddev_by_key_lookupD, if_pos hm]
  obtain ⟨v, hv⟩ := List.length_eq_one.mp h1
  rw [hv]
  norm_num [welfordStep]

/-- Witness for C1 at a concrete input: a single order in sample mode is
present with stddev `0`. -/
theorem claim_C1_welford_stddev_witness :
    (valsOf (fun o : Order => (o.market, o.category)) (fun o => o.profit)
        ("US", "Furniture") [demoOrder]).length = 1
    ∧ lookupD (aggregate_stddev_by_key [demoOrder]
        (fun o : Order => (o.market, o.category)) (fun o => o.profit) true)
        ("US", "Furniture") = some 0 :=
  ⟨by decide,
    (claim_C1_welford_stddev [demoOrder] (fun o : Order => (o.market, o.category))
      (fun o => o.profit) true ("US", "Furniture")).2.2 (by decide)⟩

/-- C5: `profit_margin_by_category_subcategory` has exactly the key set of
the per-`(category, sub_category)` sales totals; a key with nonzero sales
total maps to (total profit)/(total sales), a key with zero sales total
maps to an explicit `none`, and keys outside the sales totals are absent. -/
theorem claim_C5_profit_margin (orders : List Order) :
    keysD (profit_margin_by_category_subcategory orders)
        = keysD (aggregate_sum_by_key orders
            (fun o => (o.category, o.sub_category)) (fun o => o.sales))
    ∧ (∀ k s, lookupD (aggregate_sum_by_key orders
          (fun o => (o.category, o.sub_category)) (fun o => o.sales)) k = some s →
        lookupD (profit_margin_by_category_subcategory orders) k
          = some (if s ≠ 0 then
              some ((valsOf (fun o : Order => (o.category, o.sub_category))
                (fun o => o.profit) k orders).sum / s)
            else none))
    ∧ (∀ k, lookupD (aggregate_sum_by_key orders
          (fun o => (o.category, o.sub_category)) (fun o => o.sales)) k = none →
        lookupD (profit_margin_by_category_subcategory orders) k = none) :=
  profit_margin_char orders

/-- Witness for C5 at a concrete input: the `("Furniture", "Chairs")` group
of `[demoOrder, demoOrder2]` has sales total `100` and margin `10/100`. -/
theorem claim_C5_profit_margin_witness :
    lookupD (aggregate_sum_by_key [demoOrder, demoOrder2]
        (fun o : Order => (o.category, o.sub_category)) (fun o => o.sales))
        ("Furniture", "Chairs") = some 100
    ∧ lookupD (profit_margin_by_category_subcategory [demoOrder, demoOrder2])
        ("Furniture", "Chairs")
      = some (if (100 : ℚ) ≠ 0 then
          some ((valsOf (fun o : Order => (o.category, o.sub_category))
            (fun o => o.profit) ("Furniture", "Chairs") [demoOrder, demoOrder2]).sum / 100)
        else none) := by
  have hsum : lookupD (aggregate_sum_by_key [demoOrder, demoOrder2]
      (fun o : Order => (o.category, o.sub_category)) (fun o => o.sales))
      ("Furniture", "Chairs") = some 100 := by
    norm_num [aggregate_sum_by_key, lookupD, dictInsert, demoOrder, demoOrder2]
  exact ⟨hsum,
    (claim_C5_profit_margin [demoOrder, demoOrder2]).2.1 ("Furniture", "Chairs") 100 hsum⟩

/-! ## Stable sort and walk lemmas for `yoy_category_sales_trends` -/

section SortLemmas

variable {α : Type}

theorem insertStable_perm (keep : α → α → Bool) (s : List α) (x : α) :
    (insertStable keep s x).Perm (x :: s) := by
  induction s with
  | nil => rfl
  | cons y t ih =>
      by_cases h : keep y x
      · simpa [insertStable, h] using ((ih.cons y).trans (List.Perm.swap x y t))
      · simp [insertStable, h]

theorem sortFold_perm (keep : α → α → Bool) (l acc : List α) :
    (l.foldl (insertStable keep) acc).Perm (acc ++ l) := by
  induction l generalizing acc with
  | nil => simp
  | cons x t ih =>
      rw [List.foldl_cons]
      refine (ih (insertStable keep acc x)).trans ?_
      refine (((insertStable_perm keep acc x).append_right t).trans ?_)
      simpa using List.perm_middle.symm

theorem insertStable_sorted (keep : α → α → Bool)
    (htot : ∀ a b, keep a b = true ∨ keep b a = true)
    (htrans : ∀ a b c, keep a b = true → keep b c = true → keep a c = true)
    (s : List α) (x : α) (hs : s.Pairwise fun a b => keep a b = true) :
    (insertStable keep s x).Pairwise fun a b => keep a b = true := by
  induction s with
  | nil => simp [insertStable]
  | cons y t ih =>
      rw [List.pairwise_cons] at hs
      obtain ⟨hy, ht⟩ := hs
      by_cases h : keep y x
      · rw [insertStable, if_pos h]
        rw [List.pairwise_cons]
        refine ⟨fun b hb => ?_, ih ht⟩
        rcases List.mem_cons.mp ((insertStable_perm keep t x).mem_iff.mp hb) with hb | hb
        · subst hb; exact h
        · exact hy b hb
      · rw [insertStable, if_neg h]
        have hxy : keep x y = true := (htot x y).resolve_right (by simpa using h)
        rw [List.pairwise_cons]
        refine ⟨fun b hb => ?_, List.pairwise_cons.mpr ⟨hy, ht⟩⟩
        rcases List.mem_cons.mp hb with hb | hb
        · subst hb; exact hxy
        · exact htrans x y b hxy (hy b hb)

theorem sortFold_sorted (keep : α → α → Bool)
    (htot : ∀ a b, keep a b = true ∨ keep b a = true)
    (htrans : ∀ a b c, keep a b = true → keep b c = true → keep a c = true)
    (l acc : List α) (hacc : acc.Pairwise fun a b => keep a b = true) :
    (l.foldl (insertStable keep) acc).Pairwise fun a b => keep a b = true := by
  induction l generalizing acc with
  | nil => exact hacc
  | cons x t ih =>
      rw [List.foldl_cons]
      exact ih _ (insertStable_sorted keep htot htrans acc x hacc)

end SortLemmas

section YoyLemmas

theorem sortByYear_perm (es : List (Int × ℚ)) : (sortByYear es).Perm es := by
  simpa using sortFold_perm (fun a b => decide (a.1 ≤ b.1)) es []

theorem sortByYear_sorted (es : List (Int × ℚ)) :
    (sortByYear es).Pairwise fun a b => a.1 ≤ b.1 := by
  have h := sortFold_sorted (fun a b : Int × ℚ => decide (a.1 ≤ b.1))
    (fun a b => by rcases Int.le_total a.1 b.1 with h | h <;> simp [h])
    (fun a b c hab hbc => by
      simp only [decide_eq_true_eq] at hab hbc ⊢
      exact le_trans hab hbc)
    es [] (by simp)
  exact h.imp (by simp)

theorem yoyWalk_cons (p : Option ℚ) (e : Int × ℚ) (t : List (Int × ℚ)) :
    yoyWalk p (e :: t) = yoyCell p e :: yoyWalk (some e.2) t := by
  obtain ⟨y, s⟩ := e
  cases p <;> rfl

theorem yoyWalk_length (p : Option ℚ) (es : List (Int × ℚ)) :
    (yoyWalk p es).length = es.length := by
  induction es generalizing p with
  | nil => cases p <;> rfl
  | cons e t ih => rw [yoyWalk_cons, List.length_cons, List.length_cons, ih]

theorem yoyWalk_map_proj (p : Option ℚ) (es : List (Int × ℚ)) :
    (yoyWalk p es).map (fun e => (e.1, e.2.1)) = es := by
  induction es generalizing p with
  | nil => cases p <;> rfl
  | cons e t ih =>
      rw [yoyWalk_cons, List.map_cons, ih]
      obtain ⟨y, s⟩ := e
      cases p <;> rfl

/-- Positional specification of the walk: entry `i` is `yoyCell` of entry
`i` of the sorted list, with carried value `p` at the head and the previous
entry's sales everywhere else. -/
theorem yoyWalk_getElem (p : Option ℚ) (es : List (Int × ℚ)) (i : ℕ) :
    (yoyWalk p es)[i]?
      = (es[i]?).map (yoyCell (if i = 0 then p else (es[i-1]?).map Prod.snd)) := by
  induction es generalizing p i with
  | nil => cases p <;> simp [yoyWalk]
  | cons e t ih =>
      rw [yoyWalk_cons]
      cases i with
      | zero => simp
      | succ j =>
          rw [List.getElem?_cons_succ, ih]
          cases j with
          | zero => simp
          | succ j' => simp

end YoyLemmas

section GroupLemmas

theorem nodup_of_keysD_nodup {κ α : Type} (l : List (κ × α))
    (h : (keysD l).Nodup) : l.Nodup :=
  List.Nodup.of_map Prod.fst h

theorem pairwise_lt_of_le_of_nodup (es : List (Int × ℚ))
    (hle : es.Pairwise fun a b => a.1 ≤ b.1)
    (hnd : (es.map Prod.fst).Nodup) :
    es.Pairwise fun a b => a.1 < b.1 := by
  have hne : es.Pairwise fun a b => a.1 ≠ b.1 := List.pairwise_map.mp hnd
  exact (hle.and hne).imp fun h => lt_of_le_of_ne h.1 h.2

/-- Membership in a `(region, category)` group of the regrouping fold. -/
theorem groupEntries_mem (totals : List ((Int × String × String) × ℚ))
    (hnd : (keysD totals).Nodup) (k : String × String) (y : Int) (s : ℚ) :
    (y, s) ∈ valsOf (fun kv : (Int × String × String) × ℚ => (kv.1.2.1, kv.1.2.2))
        (fun kv => (kv.1.1, kv.2)) k totals
      ↔ lookupD totals (y, k.1, k.2) = some s := by
  constructor
  · intro h
    obtain ⟨kv, hkv, hval⟩ := List.mem_map.mp h
    obtain ⟨hmem, hkey⟩ := List.mem_filter.mp hkv
    obtain ⟨⟨y', r', c'⟩, s'⟩ := kv
    simp only [decide_eq_true_eq] at hkey
    obtain ⟨h1, h2⟩ := Prod.mk.injEq .. ▸ hval
    have hk1 : r' = k.1 := by rw [← hkey]
    have hk2 : c' = k.2 := by rw [← hkey]
    subst h1; subst h2; subst hk1; subst hk2
    exact lookupD_eq_of_mem totals _ _ hnd hmem
  · intro h
    have hmem := mem_of_lookupD_eq totals _ _ h
    refine List.mem_map.mpr ⟨((y, k.1, k.2), s), List.mem_filter.mpr ⟨hmem, ?_⟩, rfl⟩
    simp

/-- Within one group the years are distinct (the totals keys are distinct
triples with the last two components fixed by the group). -/
theorem groupEntries_years_nodup (totals : List ((Int × String × String) × ℚ))
    (hnd : (keysD totals).Nodup) (k : String × String) :
    ((valsOf (fun kv : (Int × String × String) × ℚ => (kv.1.2.1, kv.1.2.2))
        (fun kv => (kv.1.1, kv.2)) k totals).map Prod.fst).Nodup := by
  have htn : totals.Nodup := nodup_of_keysD_nodup totals hnd
  have hfil := htn.filter
    (fun kv : (Int × String × String) × ℚ => decide ((kv.1.2.1, kv.1.2.2) = k))
  rw [valsOf, List.map_map]
  refine List.Nodup.map_on ?_ hfil
  intro x hx y hy hxy
  obtain ⟨hxm, hxk⟩ := List.mem_filter.mp hx
  obtain ⟨hym, hyk⟩ := List.mem_filter.mp hy
  obtain ⟨⟨xy, xr, xc⟩, xs⟩ := x
  obtain ⟨⟨yy, yr, yc⟩, ys⟩ := y
  simp only [decide_eq_true_eq] at hxk hyk
  simp only [Function.comp, Prod.fst] at hxy
  have hkeq : ((xy, xr, xc) : Int × String × String) = (yy, yr, yc) := by
    have hrc := hxk.trans hyk.symm
    injection hrc with hr hc
    rw [hxy, hr, hc]
  have h1 := lookupD_eq_of_mem totals _ _ hnd hxm
  have h2 := lookupD_eq_of_mem totals _ _ hnd hym
  rw [hkeq] at h1
  rw [h1] at h2
  injection h2 with h3
  rw [hkeq, h3]

end GroupLemmas

/-- C3: every group list produced by `yoy_category_sales_trends` consists of
exactly the group's `(year, sales)` totals, sorted strictly ascending by
year; the first entry carries `prev_sales = none, yoy_change = none`, and
every later entry carries the previous year's sales with
`yoy_change = (sales - prev)/prev` when `prev ≠ 0` and `none` when
`prev = 0` — no exception and no infinite value. -/
theorem claim_C3_yoy_trends (orders : List Order) (k : String × String)
    (l : List (Int × ℚ × Option ℚ × Option ℚ))
    (h : lookupD (yoy_category_sales_trends orders) k = some l) :
    (∀ y s, (y, s) ∈ l.map (fun e => (e.1, e.2.1)) ↔
        lookupD (sales_by_year_region_category orders) (y, k.1, k.2) = some s)
    ∧ l.Pairwise (fun a b => a.1 < b.1)
    ∧ ∀ i (hi : i < l.length),
        (i = 0 → (l.get ⟨i, hi⟩).2.2.1 = none ∧ (l.get ⟨i, hi⟩).2.2.2 = none)
        ∧ (i ≠ 0 →
            (l.get ⟨i, hi⟩).2.2.1 = some ((l.get ⟨i - 1, by omega⟩).2.1)
            ∧ (l.get ⟨i, hi⟩).2.2.2
              = if (l.get ⟨i - 1, by omega⟩).2.1 ≠ 0 then
                  some (((l.get ⟨i, hi⟩).2.1 - (l.get ⟨i - 1, by omega⟩).2.1)
                    / (l.get ⟨i - 1, by omega⟩).2.1)
                else none) := by
  simp only [yoy_category_sales_trends] at h
  rw [lookupD_map_keyed
    (List.foldl (fun g kv =>
      dictInsert g (kv.1.2.1, kv.1.2.2)
        ((lookupD g (kv.1.2.1, kv.1.2.2)).getD [] ++ [(kv.1.1, kv.2)])) []
      (sales_by_year_region_category orders))
    (fun (_ : String × String) (es : List (Int × ℚ)) => yoyWalk none (sortByYear es))
    k] at h
  have hchar := foldAgg_lookupD (fun es yv => es ++ [yv]) ([] : List (Int × ℚ))
    (fun kv : (Int × String × String) × ℚ => (kv.1.2.1, kv.1.2.2))
    (fun kv => (kv.1.1, kv.2)) (sales_by_year_region_category orders) [] k
  simp only [lookupD] at hchar
  rw [hchar] at h
  by_cases hmem : k ∈ (sales_by_year_region_category orders).map
      (fun kv : (Int × String × String) × ℚ => (kv.1.2.1, kv.1.2.2))
  case neg => rw [if_neg hmem] at h; simp at h
  rw [if_pos hmem] at h
  rw [foldl_append_singleton, List.nil_append] at h
  simp only [Option.map_some'] at h
  have hl := Option.some.inj h
  -- names for the group data
  have hnd : (keysD (sales_by_year_region_category orders)).Nodup := by
    rw [sales_by_year_region_category]
    exact aggregate_sum_by_key_keysD_nodup orders _ _
  set ge := valsOf (fun kv : (Int × String × String) × ℚ => (kv.1.2.1, kv.1.2.2))
    (fun kv => (kv.1.1, kv.2)) k (sales_by_year_region_category orders) with hge
  set se := sortByYear ge with hse
  -- l is the walk of the sorted entries
  have hwalk : yoyWalk none se = l := hl
  have hperm : se.Perm ge := sortByYear_perm ge
  have hproj : l.map (fun e => (e.1, e.2.1)) = se := by
    rw [← hwalk, yoyWalk_map_proj]
  have hyears : (se.map Prod.fst).Nodup :=
    ((groupEntries_years_nodup _ hnd k).perm (hperm.map Prod.fst).symm)
  refine ⟨fun y s => ?_, ?_, fun i hi => ?_⟩
  · rw [hproj, hperm.mem_iff]
    exact groupEntries_mem _ hnd k y s
  · have hstrict := pairwise_lt_of_le_of_nodup se (sortByYear_sorted ge) hyears
    rw [← hproj, List.pairwise_map] at hstrict
    exact hstrict.imp fun hab => hab
  · have hlen : l.length = se.length := by rw [← hwalk, yoyWalk_length]
    have hse_i : se[i]? = some ((l.get ⟨i, hi⟩).1, (l.get ⟨i, hi⟩).2.1) := by
      rw [← hproj, List.getElem?_map, List.getElem?_eq_getElem hi]
      rfl
    have hl_i : l[i]? = some (l.get ⟨i, hi⟩) := List.getElem?_eq_getElem hi
    have hcell := yoyWalk_getElem none se i
    rw [hwalk, hl_i, hse_i] at hcell
    constructor
    · rintro rfl
      simp only [if_pos rfl] at hcell
      have := Option.some.inj hcell
      rw [this]
      exact ⟨rfl, rfl⟩
    · intro hi0
      have hi1 : i - 1 < l.length := by omega
      have hse_i1 : se[i - 1]? = some ((l.get ⟨i - 1, hi1⟩).1, (l.get ⟨i - 1, hi1⟩).2.1) := by
        rw [← hproj, List.getElem?_map, List.getElem?_eq_getElem hi1]
        rfl
      rw [if_neg hi0, hse_i1] at hcell
      simp only [Option.map_some'] at hcell
      have hcc := Option.some.inj hcell
      rw [hcc]
      exact ⟨rfl, rfl⟩

/-- Witness for C3 at a concrete input: sales 100 in 2020 and 200 in 2021
for `("US", "Furniture")` give a first entry with no comparison and a
second entry with `prev = 100` and `yoy_change = 1`. -/
theorem claim_C3_yoy_trends_witness :
    lookupD (yoy_category_sales_trends [demoOrder, demoOrder2]) ("US", "Furniture")
        = some [(2020, 100, none, none), (2021, 200, some 100, some 1)]
    ∧ ([(2020, ((100 : ℚ), (none : Option ℚ), (none : Option ℚ))),
        (2021, (200, some 100, some 1))] : List (Int × ℚ × Option ℚ × Option ℚ)).Pairwise
        (fun a b => a.1 < b.1) := by
  have hyoy : lookupD (yoy_category_sales_trends [demoOrder, demoOrder2]) ("US", "Furniture")
      = some [(2020, 100, none, none), (2021, 200, some 100, some 1)] := by
    norm_num [yoy_category_sales_trends, sales_by_year_region_category,
      aggregate_sum_by_key, lookupD, dictInsert, sortByYear, insertStable,
      yoyWalk, demoOrder, demoOrder2]
  exact ⟨hyoy,
    (claim_C3_yoy_trends [demoOrder, demoOrder2] ("US", "Furniture") _ hyoy).2.1⟩

/-- Every entry the walk emits is division-safe: a `some` change comes with
an existing, nonzero previous value and is the exact finite ratio, and an
absent previous value forces an absent change. -/
theorem yoyWalk_entry_safety (p : Option ℚ) (es : List (Int × ℚ)) :
    ∀ e ∈ yoyWalk p es,
      (∀ q, e.2.2.2 = some q →
        ∃ pv, e.2.2.1 = some pv ∧ pv ≠ 0 ∧ q = (e.2.1 - pv) / pv)
      ∧ (e.2.2.1 = none → e.2.2.2 = none) := by
  induction es generalizing p with
  | nil => intro e he; cases p <;> simp [yoyWalk] at he
  | cons e0 t ih =>
      intro e he
      rw [yoyWalk_cons, List.mem_cons] at he
      rcases he with he | he
      · subst he
        obtain ⟨y, sv⟩ := e0
        cases p with
        | none => exact ⟨fun q hq => by simp [yoyCell] at hq, fun _ => rfl⟩
        | some pv =>
            by_cases hpv : pv ≠ 0
            · exact ⟨fun q hq => ⟨pv, rfl, hpv, by simpa [yoyCell, hpv] using hq.symm⟩,
                fun hc => by simp [yoyCell] at hc⟩
            · exact ⟨fun q hq => by simp [yoyCell, hpv] at hq,
                fun hc => by simp [yoyCell, hpv]⟩
      · exact ih (some e0.2) e he

/-- Any group list of `yoy_category_sales_trends` is a `yoyWalk` from `none`. -/
theorem yoy_lookup_eq_walk (orders : List Order) (k : String × String)
    (l : List (Int × ℚ × Option ℚ × Option ℚ))
    (h : lookupD (yoy_category_sales_trends orders) k = some l) :
    ∃ es, l = yoyWalk none es := by
  simp only [yoy_category_sales_trends] at h
  rw [lookupD_map_keyed
    (List.foldl (fun g kv =>
      dictInsert g (kv.1.2.1, kv.1.2.2)
        ((lookupD g (kv.1.2.1, kv.1.2.2)).getD [] ++ [(kv.1.1, kv.2)])) []
      (sales_by_year_region_category orders))
    (fun (_ : String × String) (es : List (Int × ℚ)) => yoyWalk none (sortByYear es))
    k] at h
  cases hg : lookupD (List.foldl (fun g kv =>
      dictInsert g (kv.1.2.1, kv.1.2.2)
        ((lookupD g (kv.1.2.1, kv.1.2.2)).getD [] ++ [(kv.1.1, kv.2)])) []
      (sales_by_year_region_category orders)) k with
  | none => rw [hg] at h; simp at h
  | some es =>
      rw [hg] at h
      simp only [Option.map_some'] at h
      exact ⟨sortByYear es, (Option.some.inj h).symm⟩

/-! ## The bounded heap fold of `top_categories_by_margin` -/

section TopNLemmas

variable {α : Type} [Inhabited α] (lt : α → α → Bool)

theorem foldl_filterMap_elim {γ β : Type} (f : γ → Option α) (g : β → α → β)
    (l : List γ) (init : β) :
    (l.filterMap f).foldl g init
      = l.foldl (fun acc c => (f c).elim acc (g acc)) init := by
  induction l generalizing init with
  | nil => rfl
  | cons c t ih =>
      cases hfc : f c with
      | none => simp only [List.filterMap_cons, hfc, List.foldl_cons, Option.elim, ih]
      | some a => simp only [List.filterMap_cons, hfc, List.foldl_cons, Option.elim, ih]

/-- The heap built inside `top_categories_by_margin` is exactly the
abstract bounded fold over the candidate list. -/
theorem top_categories_eq (orders : List Order) (n : ℕ) :
    top_categories_by_margin orders n
      = ((heapFold pyLt n (topCands orders)).foldl
          (insertStable fun a b => decide (b.1 ≤ a.1)) []).map
          fun x => (x.2.1, x.2.2, x.1) := by
  simp only [top_categories_by_margin, heapFold, topCands]
  rw [foldl_filterMap_elim]
  have hfun : (fun (heap : List (ℚ × String × String)) (kv : (String × String) × ℚ) =>
        if kv.2 = 0 then heap
        else
          let margin := (lookupD (aggregate_sum_by_key orders
            (fun o => (o.category, o.sub_category)) (fun o => o.profit))
            kv.1).getD 0 / kv.2
          let h2 := heappush pyLt heap (margin, kv.1.1, kv.1.2)
          if n < h2.length then (heappop pyLt h2).2 else h2)
      = fun acc kv =>
          ((fun kv : (String × String) × ℚ =>
            if kv.2 = 0 then none
            else some
              ((lookupD (aggregate_sum_by_key orders
                  (fun o => (o.category, o.sub_category)) (fun o => o.profit))
                  kv.1).getD 0 / kv.2,
                kv.1.1, kv.1.2)) kv).elim acc (heapFoldStep pyLt n acc) := by
    funext heap kv
    by_cases hz : kv.2 = 0
    · simp [hz]
    · simp [hz, heapFoldStep]
  rw [← hfun]

theorem nodup_filterMap_key {κ M : Type} (l : List (κ × M))
    (f : κ × M → Option α) (g : α → κ)
    (hkey : ∀ kv c, f kv = some c → g c = kv.1)
    (hnd : (l.map Prod.fst).Nodup) : (l.filterMap f).Nodup := by
  induction l with
  | nil => simp
  | cons kv t ih =>
      rw [List.map_cons, List.nodup_cons] at hnd
      obtain ⟨hk, ht⟩ := hnd
      cases hfc : f kv with
      | none => simpa only [List.filterMap_cons, hfc] using ih ht
      | some c =>
          simp only [List.filterMap_cons, hfc, List.nodup_cons]
          refine ⟨?_, ih ht⟩
          intro hc
          obtain ⟨kv2, hkv2, hfkv2⟩ := List.mem_filterMap.mp hc
          apply hk
          rw [← hkey kv c hfc, hkey kv2 c hfkv2]
          exact List.mem_map.mpr ⟨kv2, hkv2, rfl⟩

/-- The candidate list has no duplicates: its key part enumerates the
(nodup) keys of the sales dict. -/
theorem topCands_nodup (orders : List Order) : (topCands orders).Nodup := by
  apply nodup_filterMap_key _ _ (fun c => c.2)
  · intro kv c hfc
    by_cases hz : kv.2 = 0
    · simp [hz] at hfc
    · rw [if_neg hz] at hfc
      injection hfc with hfc
      rw [← hfc]
  · exact aggregate_sum_by_key_keysD_nodup orders
      (fun o => (o.category, o.sub_category)) (fun o => o.sales)

/-- Tuple comparison is margin-first: `r ≥ c` forces `r.1 ≥ c.1`. -/
theorem pyLt_false_fst_le (r c : ℚ × String × String)
    (h : pyLt r c = false) : c.1 ≤ r.1 := by
  rw [pyLt_false_iff, not_lt] at h
  simp only [toLex3] at h
  rcases (Prod.Lex.le_iff _ _).mp h with h1 | ⟨h1, _⟩
  · exact le_of_lt h1
  · exact le_of_eq h1

/-- One bounded-heap step preserves the fold invariant: the heap shape, the
size `min seen n`, contents drawn from the candidates seen so far, and
every element already evicted being `≤` every retained element. -/
theorem heapFoldStep_inv (hord : LtOrder lt) (n : ℕ) (l heap : List α) (x : α)
    (hx : x ∉ l) (hH : IsHeap lt heap) (hlen : heap.length = min l.length n)
    (hle : (↑heap : Multiset α) ≤ ↑l)
    (hexc : ∀ c ∈ l, c ∉ heap → ∀ r ∈ heap, lt r c = false) :
    IsHeap lt (heapFoldStep lt n heap x)
    ∧ (heapFoldStep lt n heap x).length = min (l.length + 1) n
    ∧ (↑(heapFoldStep lt n heap x) : Multiset α) ≤ ↑(l ++ [x])
    ∧ ∀ c ∈ l ++ [x], c ∉ heapFoldStep lt n heap x →
        ∀ r ∈ heapFoldStep lt n heap x, lt r c = false := by
  obtain ⟨q1, q2, q3⟩ := heappush_spec hord heap x hH
  have hlx : ((l ++ [x] : List α) : Multiset α) = x ::ₘ (↑l : Multiset α) := by
    rw [← Multiset.coe_add, Multiset.coe_singleton, add_comm,
      Multiset.singleton_add]
  have hxheap : x ∉ heap := fun hxh =>
    hx (Multiset.mem_coe.mp (Multiset.mem_of_le hle (Multiset.mem_coe.mpr hxh)))
  unfold heapFoldStep
  by_cases hpop : n < (heappush lt heap x).length
  · rw [if_pos hpop]
    have hne : heappush lt heap x ≠ [] :=
      List.length_pos.mp (by rw [q2]; omega)
    obtain ⟨r1, r2, r3, r4, r5⟩ := heappop_spec hord _ hne q1
    rw [q2, hlen] at hpop
    refine ⟨r2, ?_, ?_, ?_⟩
    · rw [r3, q2, hlen]
      omega
    · rw [hlx]
      have s1 : (↑(heappop lt (heappush lt heap x)).2 : Multiset α)
          ≤ ↑(heappush lt heap x) := by
        rw [r4]
        exact Multiset.le_cons_self _ _
      rw [q3] at s1
      exact le_trans s1 (Multiset.cons_le_cons x hle)
    · intro c hc hcnot r hr
      have hrpush : r ∈ heappush lt heap x := by
        rw [← Multiset.mem_coe, r4]
        exact Multiset.mem_cons_of_mem (Multiset.mem_coe.mpr hr)
      have hrm : lt r (heappop lt (heappush lt heap x)).1 = false := r5 r hrpush
      have hmpush : (heappop lt (heappush lt heap x)).1 ∈ heappush lt heap x := by
        rw [← Multiset.mem_coe, r4]
        exact Multiset.mem_cons_self _ _
      rcases List.mem_append.mp hc with hcl | hcx
      · by_cases hch : c ∈ heap
        · have hcpush : c ∈ heappush lt heap x := by
            rw [← Multiset.mem_coe, q3]
            exact Multiset.mem_cons_of_mem (Multiset.mem_coe.mpr hch)
          have hcm : c = (heappop lt (heappush lt heap x)).1 := by
            have hm2 := Multiset.mem_coe.mpr hcpush
            rw [r4, Multiset.mem_cons] at hm2
            rcases hm2 with h | h
            · exact h
            · exact absurd (Multiset.mem_coe.mp h) hcnot
          rw [hcm]
          exact hrm
        · have hbound := hexc c hcl hch
          have hr2 : r ∈ (x ::ₘ (↑heap : Multiset α)) := by
            rw [← q3]
            exact Multiset.mem_coe.mpr hrpush
          rw [Multiset.mem_cons] at hr2
          rcases hr2 with hrx | hrh
          · subst hrx
            have hmx : (heappop lt (heappush lt heap r)).1
                ∈ (r ::ₘ (↑heap : Multiset α)) := by
              rw [← q3]
              exact Multiset.mem_coe.mpr hmpush
            rw [Multiset.mem_cons] at hmx
            rcases hmx with hmx | hmh
            · exfalso
              apply hxheap
              have hq : (r ::ₘ (↑heap : Multiset α))
                  = r ::ₘ ↑(heappop lt (heappush lt heap r)).2 := by
                rw [← q3, r4, hmx]
              have hhe : (↑heap : Multiset α)
                  = ↑(heappop lt (heappush lt heap r)).2 :=
                (Multiset.cons_inj_right r).mp hq
              rw [← Multiset.mem_coe, hhe, Multiset.mem_coe]
              exact hr
            · have h1 : lt (heappop lt (heappush lt heap r)).1 c = false :=
                hbound _ (Multiset.mem_coe.mp hmh)
              exact hord.ge_trans _ _ _ hrm h1
          · exact hbound r (Multiset.mem_coe.mp hrh)
      · have hcx2 : c = x := by simpa using hcx
        subst hcx2
        have hcpush : c ∈ heappush lt heap c := by
          rw [← Multiset.mem_coe, q3]
          exact Multiset.mem_cons_self _ _
        have hm2 : c ∈ ((heappop lt (heappush lt heap c)).1
            ::ₘ (↑(heappop lt (heappush lt heap c)).2 : Multiset α)) := by
          rw [← r4]
          exact Multiset.mem_coe.mpr hcpush
        rw [Multiset.mem_cons] at hm2
        rcases hm2 with hxm | hxh
        · rw [hxm]
          exact hrm
        · exact absurd (Multiset.mem_coe.mp hxh) hcnot
  · rw [if_neg hpop]
    push_neg at hpop
    rw [q2, hlen] at hpop
    have hcard : (↑heap : Multiset α) = ↑l := by
      apply Multiset.eq_of_le_of_card_le hle
      rw [Multiset.coe_card, Multiset.coe_card, hlen]
      omega
    refine ⟨q1, ?_, ?_, ?_⟩
    · rw [q2, hlen]
      omega
    · rw [q3, hlx]
      exact Multiset.cons_le_cons x hle
    · intro c hc hcnot r hr
      exfalso
      apply hcnot
      rcases List.mem_append.mp hc with hcl | hcx
      · have hcm : c ∈ (↑heap : Multiset α) := by
          rw [hcard]
          exact Multiset.mem_coe.mpr hcl
        rw [← Multiset.mem_coe, q3]
        exact Multiset.mem_cons_of_mem hcm
      · have hcx2 : c = x := by simpa using hcx
        rw [← Multiset.mem_coe, q3, hcx2]
        exact Multiset.mem_cons_self _ _

/-- The bounded-heap fold over a duplicate-free candidate list yields a
heap of the `min (#candidates) n` largest candidates: its contents are
candidates, and every candidate left out is `≤` every retained one. -/
theorem heapFold_spec (hord : LtOrder lt) (n : ℕ) (cands : List α)
    (hnd : cands.Nodup) :
    IsHeap lt (heapFold lt n cands)
    ∧ (heapFold lt n cands).length = min cands.length n
    ∧ (↑(heapFold lt n cands) : Multiset α) ≤ ↑cands
    ∧ ∀ c ∈ cands, c ∉ heapFold lt n cands →
        ∀ r ∈ heapFold lt n cands, lt r c = false := by
  induction cands using List.reverseRecOn with
  | nil =>
      refine ⟨?_, by simp [heapFold], by simp [heapFold], by simp⟩
      intro i hi hilen
      simp [heapFold] at hilen
  | append_singleton l x ih =>
      have hnd2 : l.Nodup ∧ x ∉ l := by
        rw [List.nodup_append] at hnd
        exact ⟨hnd.1, fun hxl => hnd.2.2 hxl (List.mem_singleton_self x)⟩
      obtain ⟨h1, h2, h3, h4⟩ := ih hnd2.1
      have hstep : heapFold lt n (l ++ [x])
          = heapFoldStep lt n (heapFold lt n l) x := by
        simp [heapFold, List.foldl_append]
      rw [hstep]
      have hinv := heapFoldStep_inv lt hord n l (heapFold lt n l) x hnd2.2 h1 h2 h3 h4
      simpa [List.length_append] using hinv

/-- A candidate is retained by the bounded-heap fold exactly when fewer
than `n` candidates are strictly greater than it: the fold selects the
top `n` of the candidate list under `lt`, however the list is ordered. -/
theorem heapFold_mem_iff [DecidableEq α] (hord : LtOrder lt) (n : ℕ)
    (cands : List α) (hnd : cands.Nodup) (x : α) :
    x ∈ heapFold lt n cands
      ↔ x ∈ cands ∧ cands.countP (fun y => lt x y) < n := by
  obtain ⟨hH, hlen, hle, hexc⟩ := heapFold_spec lt hord n cands hnd
  have hfnd : (heapFold lt n cands).Nodup :=
    Multiset.coe_nodup.mp (Multiset.nodup_of_le hle (Multiset.coe_nodup.mpr hnd))
  constructor
  · intro hx
    have hxc : x ∈ cands :=
      Multiset.mem_coe.mp (Multiset.mem_of_le hle (Multiset.mem_coe.mpr hx))
    refine ⟨hxc, ?_⟩
    have hsub : ∀ y ∈ cands.filter (fun y => lt x y),
        y ∈ (heapFold lt n cands).erase x := by
      intro y hy
      rw [List.mem_filter] at hy
      obtain ⟨hyc, hyl⟩ := hy
      have hyne : y ≠ x := by
        intro he
        rw [he, hord.irrefl] at hyl
        exact Bool.false_ne_true hyl
      have hyf : y ∈ heapFold lt n cands := by
        by_contra hny
        rw [hexc y hyc hny x hx] at hyl
        exact Bool.false_ne_true hyl
      exact (List.mem_erase_of_ne hyne).mpr hyf
    have hsp := (hnd.filter _).subperm hsub
    have hlen2 := hsp.length_le
    rw [List.countP_eq_length_filter]
    rw [List.length_erase_of_mem hx, hlen] at hlen2
    have hpos : 0 < (heapFold lt n cands).length :=
      List.length_pos.mpr (fun he => by rw [he] at hx; exact List.not_mem_nil x hx)
    rw [hlen] at hpos
    omega
  · rintro ⟨hxc, hcount⟩
    by_contra hxf
    have hbound := hexc x hxc hxf
    by_cases hcn : cands.length ≤ n
    · have heq : (↑(heapFold lt n cands) : Multiset α) = ↑cands := by
        apply Multiset.eq_of_le_of_card_le hle
        rw [Multiset.coe_card, Multiset.coe_card, hlen]
        omega
      apply hxf
      rw [← Multiset.mem_coe, heq, Multiset.mem_coe]
      exact hxc
    · push_neg at hcn
      have hsub : ∀ r ∈ heapFold lt n cands, r ∈ cands.filter (fun y => lt x y) := by
        intro r hr
        rw [List.mem_filter]
        refine ⟨Multiset.mem_coe.mp (Multiset.mem_of_le hle (Multiset.mem_coe.mpr hr)), ?_⟩
        have h1 : lt r x = false := hbound r hr
        cases h2 : lt x r with
        | true => rfl
        | false => exact absurd ((hord.conn r x h1 h2) ▸ hr) hxf
      have hsp := hfnd.subperm hsub
      have hlen2 := hsp.length_le
      rw [hlen] at hlen2
      rw [List.countP_eq_length_filter] at hcount
      omega

/-- Membership in a `top_categories_by_margin` row is membership of the
corresponding `(margin, category, sub_category)` tuple in the bounded-heap
fold over the candidates. -/
theorem mem_top_categories_iff (orders : List Order) (n : ℕ)
    (e : String × String × ℚ) :
    e ∈ top_categories_by_margin orders n
      ↔ (e.2.2, e.1, e.2.1) ∈ heapFold pyLt n (topCands orders) := by
  rw [top_categories_eq, List.mem_map]
  constructor
  · rintro ⟨y, hy, rfl⟩
    have hmem := (sortFold_perm (fun a b => decide (b.1 ≤ a.1))
      (heapFold pyLt n (topCands orders)) []).mem_iff.mp hy
    simpa using hmem
  · intro hx
    refine ⟨(e.2.2, e.1, e.2.1), ?_, rfl⟩
    apply (sortFold_perm (fun a b => decide (b.1 ≤ a.1))
      (heapFold pyLt n (topCands orders)) []).mem_iff.mpr
    simpa using hx

/-- Concrete evaluation: the demo order's group sells `100`. -/
theorem aggregate_sales_demo :
    aggregate_sum_by_key [demoOrder]
      (fun o => (o.category, o.sub_category)) (fun o => o.sales)
      = [(("Furniture", "Chairs"), 100)] := by
  simp [aggregate_sum_by_key, lookupD, dictInsert, demoOrder]

/-- Concrete evaluation: the demo order's group earns `10`. -/
theorem aggregate_profit_demo :
    aggregate_sum_by_key [demoOrder]
      (fun o => (o.category, o.sub_category)) (fun o => o.profit)
      = [(("Furniture", "Chairs"), 10)] := by
  simp [aggregate_sum_by_key, lookupD, dictInsert, demoOrder]

/-- Concrete evaluation: one candidate with margin `10 / 100 = 1/10`. -/
theorem topCands_demo :
    topCands [demoOrder] = [((1/10 : ℚ), "Furniture", "Chairs")] := by
  rw [topCands, aggregate_sales_demo, aggregate_profit_demo]
  norm_num [lookupD, List.filterMap_cons, List.filterMap_nil]

/-- Concrete evaluation: the single-candidate pipeline at capacity `5`. -/
theorem top_categories_demo5 :
    top_categories_by_margin [demoOrder] 5
      = [("Furniture", "Chairs", (1/10 : ℚ))] := by
  rw [top_categories_eq, topCands_demo]
  have hh : heapFold pyLt 5 [((1/10 : ℚ), "Furniture", "Chairs")]
      = [((1/10 : ℚ), "Furniture", "Chairs")] := by
    simp [heapFold, heapFoldStep, heappush, siftdown]
  rw [hh]
  simp [insertStable]

/-- Concrete evaluation: the single-candidate pipeline at capacity `1`. -/
theorem top_categories_demo1 :
    top_categories_by_margin [demoOrder] 1
      = [("Furniture", "Chairs", (1/10 : ℚ))] := by
  rw [top_categories_eq, topCands_demo]
  have hh : heapFold pyLt 1 [((1/10 : ℚ), "Furniture", "Chairs")]
      = [((1/10 : ℚ), "Furniture", "Chairs")] := by
    simp [heapFold, heapFoldStep, heappush, siftdown]
  rw [hh]
  simp [insertStable]

end TopNLemmas

/-- C4: for every input and every `n`, `top_categories_by_margin` returns
at most `n` rows, sorted descending by margin; every row is a group with
nonzero total sales carrying margin `total_profit / total_sales`; and
every candidate group left out has margin `≤` every returned row's margin
(the returned rows are a top-`n` selection by margin). -/
theorem claim_C4_top_n (orders : List Order) (n : ℕ) :
    (top_categories_by_margin orders n).length ≤ n
    ∧ (top_categories_by_margin orders n).Pairwise (fun a b => b.2.2 ≤ a.2.2)
    ∧ (∀ e ∈ top_categories_by_margin orders n,
        ∃ s : ℚ,
          lookupD (aggregate_sum_by_key orders
            (fun o => (o.category, o.sub_category)) (fun o => o.sales))
            (e.1, e.2.1) = some s
          ∧ s ≠ 0
          ∧ e.2.2 = (lookupD (aggregate_sum_by_key orders
              (fun o => (o.category, o.sub_category)) (fun o => o.profit))
              (e.1, e.2.1)).getD 0 / s)
    ∧ ∀ c ∈ topCands orders,
        (c.2.1, c.2.2, c.1) ∉ top_categories_by_margin orders n →
        ∀ e ∈ top_categories_by_margin orders n, c.1 ≤ e.2.2 := by
  obtain ⟨hH, hlen, hle, hexc⟩ :=
    heapFold_spec pyLt pyLtOrder n (topCands orders) (topCands_nodup orders)
  refine ⟨?_, ?_, ?_, ?_⟩
  · rw [top_categories_eq, List.length_map]
    have hperm := sortFold_perm (fun a b : ℚ × String × String => decide (b.1 ≤ a.1))
      (heapFold pyLt n (topCands orders)) []
    rw [hperm.length_eq, List.nil_append, hlen]
    omega
  · rw [top_categories_eq]
    have hsorted := sortFold_sorted
      (fun a b : ℚ × String × String => decide (b.1 ≤ a.1))
      (fun a b => by rcases le_total a.1 b.1 with h | h <;> simp [h])
      (fun a b c hab hbc => by
        simp only [decide_eq_true_eq] at hab hbc ⊢
        exact le_trans hbc hab)
      (heapFold pyLt n (topCands orders)) [] (by simp)
    rw [List.pairwise_map]
    exact hsorted.imp (fun h => by simpa using h)
  · intro e he
    rw [mem_top_categories_iff] at he
    have hc : (e.2.2, e.1, e.2.1) ∈ topCands orders :=
      Multiset.mem_coe.mp (Multiset.mem_of_le hle (Multiset.mem_coe.mpr he))
    rw [topCands, List.mem_filterMap] at hc
    obtain ⟨kv, hkv, hfc⟩ := hc
    by_cases hz : kv.2 = 0
    · rw [if_pos hz] at hfc
      cases hfc
    · rw [if_neg hz] at hfc
      injection hfc with hfc
      simp only [Prod.mk.injEq] at hfc
      obtain ⟨h0, h1, h2⟩ := hfc
      have hk : (e.1, e.2.1) = kv.1 := by
        rw [← h1, ← h2]
      refine ⟨kv.2, ?_, hz, ?_⟩
      · rw [hk]
        exact lookupD_eq_of_mem _ kv.1 kv.2
          (aggregate_sum_by_key_keysD_nodup orders
            (fun o => (o.category, o.sub_category)) (fun o => o.sales)) hkv
      · rw [hk, ← h0]
  · intro c hcmem hcnot e he
    rw [mem_top_categories_iff] at he
    have hcnot2 : c ∉ heapFold pyLt n (topCands orders) := by
      intro hcf
      apply hcnot
      rw [mem_top_categories_iff]
      simpa using hcf
    exact pyLt_false_fst_le _ _ (hexc c hcmem hcnot2 _ he)

/-- C9 (amended): the *set* of rows `top_categories_by_margin` returns is
deterministic and a function of the candidate multiset alone — a row is
returned exactly when fewer than `n` candidates beat its
`(margin, category, sub_category)` tuple in Python's lexicographic tuple
order, so among equal margins at the boundary the lexicographically
greater keys are retained — but the *order* of the returned sequence is
not a function of the candidate multiset (see the counterexample). -/
theorem claim_C9_retained_set (orders : List Order) (n : ℕ) :
    (∀ e, e ∈ top_categories_by_margin orders n
        ↔ (e.2.2, e.1, e.2.1) ∈ topCands orders
          ∧ (topCands orders).countP
              (fun y => pyLt (e.2.2, e.1, e.2.1) y) < n)
    ∧ ∀ orders2 : List Order,
        List.Perm (topCands orders2) (topCands orders) →
        ∀ e, (e ∈ top_categories_by_margin orders2 n
          ↔ e ∈ top_categories_by_margin orders n) := by
  constructor
  · intro e
    rw [mem_top_categories_iff]
    exact heapFold_mem_iff pyLt pyLtOrder n _ (topCands_nodup orders) _
  · intro orders2 hperm e
    rw [mem_top_categories_iff, mem_top_categories_iff,
      heapFold_mem_iff pyLt pyLtOrder n _ (topCands_nodup orders2),
      heapFold_mem_iff pyLt pyLtOrder n _ (topCands_nodup orders),
      hperm.mem_iff, hperm.countP_eq]

/-- C6: the three division/empty-group sites of the composite queries are
total and yield explicit absent values, never a numeric sentinel: a margin
key with zero sales maps to `some none` (present, explicitly undefined) and
one with nonzero sales to an actual ratio; `discounted_profit_share` is
`none` exactly when total profit is zero; and every `yoy_change` that is
present divides by an existing nonzero previous value, while an absent
previous value forces an absent change. -/
theorem claim_C6_totality (orders : List Order) :
    (∀ k s, lookupD (aggregate_sum_by_key orders
          (fun o : Order => (o.category, o.sub_category)) (fun o => o.sales)) k = some s →
        (s = 0 → lookupD (profit_margin_by_category_subcategory orders) k = some none)
      ∧ (s ≠ 0 → ∃ m, lookupD (profit_margin_by_category_subcategory orders) k
          = some (some m)))
    ∧ (discounted_profit_share orders = none ↔ (orders.map fun o => o.profit).sum = 0)
    ∧ (∀ k l, lookupD (yoy_category_sales_trends orders) k = some l →
        ∀ e ∈ l,
          (∀ q, e.2.2.2 = some q →
            ∃ pv, e.2.2.1 = some pv ∧ pv ≠ 0 ∧ q = (e.2.1 - pv) / pv)
          ∧ (e.2.2.1 = none → e.2.2.2 = none)) := by
  refine ⟨fun k s hs => ?_, ?_, fun k l hl => ?_⟩
  · have hchar := (profit_margin_char orders).2.1 k s hs
    constructor
    · rintro rfl
      rw [hchar]
      simp
    · intro hs0
      rw [hchar, if_pos hs0]
      exact ⟨_, rfl⟩
  · simp only [discounted_profit_share]
    rw [lookupD_sum_const_key orders (fun o => o.profit)]
    by_cases h : (orders.map fun o => o.profit).sum = 0 <;> simp [h]
  · obtain ⟨es, rfl⟩ := yoy_lookup_eq_walk orders k l hl
    exact yoyWalk_entry_safety none es

/-- Witness for C6 at a concrete input: the `("Furniture", "Chairs")` group
has nonzero sales `100`, so its margin is present and not `none`. -/
theorem claim_C6_totality_witness :
    lookupD (aggregate_sum_by_key [demoOrder, demoOrder2]
        (fun o : Order => (o.category, o.sub_category)) (fun o => o.sales))
        ("Furniture", "Chairs") = some 100
    ∧ ((100 : ℚ) ≠ 0)
    ∧ (∃ m, lookupD (profit_margin_by_category_subcategory [demoOrder, demoOrder2])
        ("Furniture", "Chairs") = some (some m)) := by
  have hs : lookupD (aggregate_sum_by_key [demoOrder, demoOrder2]
      (fun o : Order => (o.category, o.sub_category)) (fun o => o.sales))
      ("Furniture", "Chairs") = some 100 := by
    norm_num [aggregate_sum_by_key, lookupD, dictInsert, demoOrder, demoOrder2]
  refine ⟨hs, by norm_num, ?_⟩
  exact ((claim_C6_totality [demoOrder, demoOrder2]).1 ("Furniture", "Chairs") 100 hs).2
    (by norm_num)


/-- C9 counterexample: two permutations of the same three tied-margin
records (so the candidate multisets agree) make `top_categories_by_margin`
emit its rows in different orders: the output sequence is not a function
of the candidate multiset. -/
theorem claim_C9_counterexample :
    List.Perm [tieOrder "A" "a", tieOrder "B" "b", tieOrder "C" "c"]
      [tieOrder "C" "c", tieOrder "B" "b", tieOrder "A" "a"]
    ∧ List.Perm
        (topCands [tieOrder "A" "a", tieOrder "B" "b", tieOrder "C" "c"])
        (topCands [tieOrder "C" "c", tieOrder "B" "b", tieOrder "A" "a"])
    ∧ top_categories_by_margin
        [tieOrder "A" "a", tieOrder "B" "b", tieOrder "C" "c"] 5
      ≠ top_categories_by_margin
        [tieOrder "C" "c", tieOrder "B" "b", tieOrder "A" "a"] 5 := by
  have hBA : ¬ (("B" : String) < "A") := by
    rw [String.lt_iff_toList_lt]
    decide
  have hCA : ¬ (("C" : String) < "A") := by
    rw [String.lt_iff_toList_lt]
    decide
  have hBC : (("B" : String) < "C") := by
    rw [String.lt_iff_toList_lt]
    decide
  have hAB : (("A" : String) < "B") := by
    rw [String.lt_iff_toList_lt]
    decide
  have pyx : pyLt (0, "B", "b") (0, "A", "a") = false := by
    simp [pyLt, hBA]
  have pzx : pyLt (0, "C", "c") (0, "A", "a") = false := by
    simp [pyLt, hCA]
  have pyz : pyLt (0, "B", "b") (0, "C", "c") = true := by
    simp [pyLt, hBC]
  have pxy : pyLt (0, "A", "a") (0, "B", "b") = true := by
    simp [pyLt, hAB]
  have hs1 : aggregate_sum_by_key
      [tieOrder "A" "a", tieOrder "B" "b", tieOrder "C" "c"]
      (fun o => (o.category, o.sub_category)) (fun o => o.sales)
      = [(("A", "a"), 1), (("B", "b"), 1), (("C", "c"), 1)] := by
    simp [aggregate_sum_by_key, lookupD, dictInsert, tieOrder, demoOrder]
  have hp1 : aggregate_sum_by_key
      [tieOrder "A" "a", tieOrder "B" "b", tieOrder "C" "c"]
      (fun o => (o.category, o.sub_category)) (fun o => o.profit)
      = [(("A", "a"), 0), (("B", "b"), 0), (("C", "c"), 0)] := by
    simp [aggregate_sum_by_key, lookupD, dictInsert, tieOrder, demoOrder]
  have hs2 : aggregate_sum_by_key
      [tieOrder "C" "c", tieOrder "B" "b", tieOrder "A" "a"]
      (fun o => (o.category, o.sub_category)) (fun o => o.sales)
      = [(("C", "c"), 1), (("B", "b"), 1), (("A", "a"), 1)] := by
    simp [aggregate_sum_by_key, lookupD, dictInsert, tieOrder, demoOrder]
  have hp2 : aggregate_sum_by_key
      [tieOrder "C" "c", tieOrder "B" "b", tieOrder "A" "a"]
      (fun o => (o.category, o.sub_category)) (fun o => o.profit)
      = [(("C", "c"), 0), (("B", "b"), 0), (("A", "a"), 0)] := by
    simp [aggregate_sum_by_key, lookupD, dictInsert, tieOrder, demoOrder]
  have hc1 : topCands [tieOrder "A" "a", tieOrder "B" "b", tieOrder "C" "c"]
      = [(0, "A", "a"), (0, "B", "b"), (0, "C", "c")] := by
    rw [topCands, hs1, hp1]
    simp [lookupD]
  have hc2 : topCands [tieOrder "C" "c", tieOrder "B" "b", tieOrder "A" "a"]
      = [(0, "C", "c"), (0, "B", "b"), (0, "A", "a")] := by
    rw [topCands, hs2, hp2]
    simp [lookupD]
  have hh1 : heapFold pyLt 5 [((0 : ℚ), "A", "a"), (0, "B", "b"), (0, "C", "c")]
      = [(0, "A", "a"), (0, "B", "b"), (0, "C", "c")] := by
    simp [heapFold, heapFoldStep, heappush, siftdown, pyx, pzx]
  have hh2 : heapFold pyLt 5 [((0 : ℚ), "C", "c"), (0, "B", "b"), (0, "A", "a")]
      = [(0, "A", "a"), (0, "C", "c"), (0, "B", "b")] := by
    simp [heapFold, heapFoldStep, heappush, siftdown, pyz, pxy]
  have ht1 : top_categories_by_margin
      [tieOrder "A" "a", tieOrder "B" "b", tieOrder "C" "c"] 5
      = [("A", "a", (0 : ℚ)), ("B", "b", 0), ("C", "c", 0)] := by
    rw [top_categories_eq, hc1, hh1]
    simp [insertStable]
  have ht2 : top_categories_by_margin
      [tieOrder "C" "c", tieOrder "B" "b", tieOrder "A" "a"] 5
      = [("A", "a", (0 : ℚ)), ("C", "c", 0), ("B", "b", 0)] := by
    rw [top_categories_eq, hc2, hh2]
    simp [insertStable]
  refine ⟨?_, ?_, ?_⟩
  · exact (List.reverse_perm
      [tieOrder "A" "a", tieOrder "B" "b", tieOrder "C" "c"]).symm
  · rw [hc1, hc2]
    exact (List.reverse_perm
      [((0 : ℚ), "A", "a"), (0, "B", "b"), (0, "C", "c")]).symm
  · intro h
    rw [ht1, ht2] at h
    simp at h


theorem claim_C4_top_n_witness :
    ("Furniture", "Chairs", (1/10 : ℚ)) ∈ top_categories_by_margin [demoOrder] 5
    ∧ ∃ s : ℚ,
        lookupD (aggregate_sum_by_key [demoOrder]
          (fun o => (o.category, o.sub_category)) (fun o => o.sales))
          ("Furniture", "Chairs") = some s
        ∧ s ≠ 0
        ∧ (1/10 : ℚ) = (lookupD (aggregate_sum_by_key [demoOrder]
            (fun o => (o.category, o.sub_category)) (fun o => o.profit))
            ("Furniture", "Chairs")).getD 0 / s := by
  have hmem : ("Furniture", "Chairs", (1/10 : ℚ))
      ∈ top_categories_by_margin [demoOrder] 5 := by
    rw [top_categories_demo5]
    exact List.mem_singleton_self _
  exact ⟨hmem,
    (claim_C4_top_n [demoOrder] 5).2.2.1 ("Furniture", "Chairs", (1/10 : ℚ)) hmem⟩

theorem claim_C9_retained_set_witness :
    ("Furniture", "Chairs", (1/10 : ℚ)) ∈ top_categories_by_margin [demoOrder] 1 := by
  apply ((claim_C9_retained_set [demoOrder] 1).1
    ("Furniture", "Chairs", (1/10 : ℚ))).mpr
  rw [topCands_demo]
  refine ⟨List.mem_singleton_self _, ?_⟩
  rw [List.countP_cons, List.countP_nil, pyLtOrder.irrefl]
  norm_num

end SuperStore
